import Mathlib

/-!
Verification of the asset dependency graph analyzer of the yii2-mcp-server
repository (src/unnamed/part_000).  The analyzer consists of:

* `findCircularDependencies` (lines 1316-1352): depth-first search with a
  `visited` set and a `recursionStack` set, collecting cycles;
* `topologicalSort` (lines 1354-1387): depth-first topological sort with a
  `temp` (in-progress) set and a `visited` set, prepending each finished
  asset with `unshift`;
* `analyzeAssetDependencies` (lines 888-898) together with
  `analyzeSpecificAsset` (lines 1268-1314): the single-asset query;
* the `$depends` parsing in `parseAssetFile` (lines 1150-1158).

The TypeScript recursion is embedded with an explicit fuel parameter; the
recursion operator `dfsCD`/`visitTS` is structural in the fuel, so that all
definitions are executable and kernel-reducible.  Fuel `assets.length + 1`
is proved sufficient (`cd_total`, `ts_total`): each name is visited to
completion at most once.
-/

namespace Yii2Mcp

/-- The `AssetInfo` interface (part_000 lines 30-41); the `publishOptions`
field (type `any`, never read by the analyzers) is omitted. -/
structure AssetInfo where
  name : String
  path : String
  module : Option String
  basePath : Option String
  baseUrl : Option String
  css : List String
  js : List String
  depends : List String
  sourcePath : Option String
deriving DecidableEq, Repr

/-- `assets.find(a => a.name === assetName)` — the name lookup used by all
three analyzers (lines 890, 1335, 1365, 1367).  `Array.prototype.find`
returns the FIRST matching element. -/
def findAsset (assets : List AssetInfo) (assetName : String) : Option AssetInfo :=
  assets.find? (fun a => a.name == assetName)

/-- Mutable state of `findCircularDependencies`: the `cycles` accumulator,
the `visited` set and the `recursionStack` set (lines 1317-1319).  The JS
`Set`s are modelled as lists queried by membership. -/
structure CDState where
  cycles : List (List String)
  visited : List String
  recStack : List String
deriving DecidableEq, Repr

/-- `path.slice(cycleStart)` where `cycleStart = path.indexOf(assetName)`
(lines 1323-1325): the suffix of `path` from the first occurrence of `a`.
The caller only uses it under the guard `cycleStart !== -1`, i.e. `a ∈ path`. -/
def sliceFrom (a : String) : List String → List String
  | [] => []
  | b :: bs => if b = a then b :: bs else sliceFrom a bs

/-- The `for (const dependency of asset.depends) dfs(dependency, ...)` loop
(lines 1336-1338), threading the state through the recursive calls.  `rec` is
the recursive `dfs` call with the path argument already applied. -/
def dfsDepsRun (rec : String → CDState → Option CDState) :
    List String → CDState → Option CDState
  | [], s => some s
  | d :: ds, s =>
    match rec d s with
    | some s1 => dfsDepsRun rec ds s1
    | none => none

/-- One unfolding of the `dfs` closure of `findCircularDependencies`
(lines 1321-1343), parametrised by the recursive call `rec`:

* if `assetName` is on the recursion stack, record the cycle
  `[...path.slice(path.indexOf(assetName)), assetName]` when
  `path.indexOf(assetName) !== -1`, and return;
* if `assetName` is already visited, return;
* otherwise add `assetName` to `visited` and to the recursion stack, recurse
  into the dependencies when the asset resolves (a missing node has no
  outgoing edges), and finally delete `assetName` from the recursion stack. -/
def dfsCDStep (assets : List AssetInfo)
    (rec : String → List String → CDState → Option CDState)
    (assetName : String) (path : List String) (s : CDState) : Option CDState :=
  if assetName ∈ s.recStack then
    some (if assetName ∈ path then
      ⟨s.cycles ++ [sliceFrom assetName path ++ [assetName]], s.visited, s.recStack⟩
    else s)
  else if assetName ∈ s.visited then some s
  else
    let s1 : CDState := ⟨s.cycles, assetName :: s.visited, assetName :: s.recStack⟩
    match findAsset assets assetName with
    | some asset =>
      match dfsDepsRun (fun d st => rec d (path ++ [assetName]) st) asset.depends s1 with
      | some s2 => some ⟨s2.cycles, s2.visited, s2.recStack.erase assetName⟩
      | none => none
    | none => some ⟨s1.cycles, s1.visited, s1.recStack.erase assetName⟩

/-- The `dfs` closure of `findCircularDependencies`, with fuel. -/
def dfsCD (assets : List AssetInfo) : Nat → String → List String → CDState → Option CDState
  | 0 => fun _ _ _ => none
  | fuel + 1 => dfsCDStep assets (dfsCD assets fuel)

/-- The outer loop `assets.forEach(asset => { if (!visited.has(asset.name))
dfs(asset.name, []); })` (lines 1345-1349). -/
def cdOuter (assets : List AssetInfo) (fuel : Nat) :
    List AssetInfo → CDState → Option CDState
  | [], s => some s
  | a :: rest, s =>
    if a.name ∈ s.visited then cdOuter assets fuel rest s
    else
      match dfsCD assets fuel a.name [] s with
      | some s1 => cdOuter assets fuel rest s1
      | none => none

/-- `findCircularDependencies` (lines 1316-1352); fuel `assets.length + 1`
is sufficient (`cd_total`). -/
def findCircularDependencies (assets : List AssetInfo) : List (List String) :=
  match cdOuter assets (assets.length + 1) assets ⟨[], [], []⟩ with
  | some s => s.cycles
  | none => []

/-- Mutable state of `topologicalSort`: the `sorted` output array, the
`visited` set and the `temp` (in-progress) set (lines 1355-1357). -/
structure TSState where
  sorted : List AssetInfo
  visited : List String
  temp : List String
deriving DecidableEq, Repr

/-- The `asset.depends.forEach(dep => { const depAsset = assets.find(...);
if (depAsset) visit(dep); })` loop (lines 1366-1371): a dependency is only
visited when it resolves to a known asset. -/
def tsDepsRun (assets : List AssetInfo) (rec : String → TSState → Option TSState) :
    List String → TSState → Option TSState
  | [], s => some s
  | d :: ds, s =>
    match findAsset assets d with
    | some _ =>
      match rec d s with
      | some s1 => tsDepsRun assets rec ds s1
      | none => none
    | none => tsDepsRun assets rec ds s

/-- One unfolding of the `visit` closure of `topologicalSort`
(lines 1359-1377), parametrised by the recursive call `rec`:

* if `assetName` is in `temp` (circular dependency) or in `visited`, return;
* otherwise add `assetName` to `temp`; if the asset resolves, visit the
  resolvable dependencies, then delete `assetName` from `temp`, add it to
  `visited` and `unshift` (prepend) the asset onto `sorted`.  When the asset
  does not resolve, the JS code leaves `assetName` in `temp` and never adds
  it to `visited`. -/
def visitStep (assets : List AssetInfo) (rec : String → TSState → Option TSState)
    (assetName : String) (s : TSState) : Option TSState :=
  if assetName ∈ s.temp then some s
  else if assetName ∈ s.visited then some s
  else
    let s1 : TSState := ⟨s.sorted, s.visited, assetName :: s.temp⟩
    match findAsset assets assetName with
    | some asset =>
      match tsDepsRun assets rec asset.depends s1 with
      | some s2 => some ⟨asset :: s2.sorted, assetName :: s2.visited, s2.temp.erase assetName⟩
      | none => none
    | none => some s1

/-- The `visit` closure of `topologicalSort`, with fuel. -/
def visitTS (assets : List AssetInfo) : Nat → String → TSState → Option TSState
  | 0 => fun _ _ => none
  | fuel + 1 => visitStep assets (visitTS assets fuel)

/-- The outer loop `assets.forEach(asset => { if (!visited.has(asset.name))
visit(asset.name); })` (lines 1379-1383). -/
def tsOuter (assets : List AssetInfo) (fuel : Nat) :
    List AssetInfo → TSState → Option TSState
  | [], s => some s
  | a :: rest, s =>
    if a.name ∈ s.visited then tsOuter assets fuel rest s
    else
      match visitTS assets fuel a.name s with
      | some s1 => tsOuter assets fuel rest s1
      | none => none

/-- `topologicalSort` (lines 1354-1387); fuel `assets.length + 1` is
sufficient (`ts_total`). -/
def topologicalSort (assets : List AssetInfo) : List AssetInfo :=
  match tsOuter assets (assets.length + 1) assets ⟨[], [], []⟩ with
  | some s => s.sorted
  | none => []

/-- A single quote character (code 39), written by code point to keep the
embedding free of literal apostrophes. -/
def quoteChar : Char := Char.ofNat 39

/-- The string consisting of one single-quote character. -/
def quoteStr : String := String.mk [quoteChar]

/-- The single-asset branch of `analyzeAssetDependencies` (lines 890-898)
combined with `analyzeSpecificAsset` (lines 1268-1314).  The thrown
`Error("Asset '<name>' not found")` is modelled as `Except.error` with the
same message; the rendered report is abstracted to the data it displays: the
asset found, its `depends` list printed verbatim (line 1291), and the
reverse dependents `allAssets.filter(a => a.depends.includes(asset.name))`
(line 1297). -/
def analyzeAsset (assets : List AssetInfo) (assetName : String) :
    Except String (AssetInfo × List String × List AssetInfo) :=
  match findAsset assets assetName with
  | none => Except.error ("Asset " ++ quoteStr ++ assetName ++ quoteStr ++ " not found")
  | some asset =>
    Except.ok (asset, asset.depends, assets.filter (fun a => a.depends.contains asset.name))

/-- The dependency edge relation of the extracted graph: `m` depends on `n`
when the name lookup resolves `m` to a descriptor whose `depends` list
contains `n` (this is the adjacency actually traversed at lines 1335-1338
and 1365-1370). -/
def Edge (assets : List AssetInfo) (m n : String) : Prop :=
  ∃ a, findAsset assets m = some a ∧ n ∈ a.depends

/-- The dependency graph is acyclic: no name reaches itself through a
nonempty chain of edges. -/
def Acyclic (assets : List AssetInfo) : Prop :=
  ∀ n, ¬ Relation.TransGen (Edge assets) n n

/-! ### Basic facts about the name lookup -/

theorem findAsset_name {assets : List AssetInfo} {n : String} {a : AssetInfo}
    (h : findAsset assets n = some a) : a ∈ assets ∧ a.name = n := by
  refine ⟨List.mem_of_find?_eq_some h, ?_⟩
  have := List.find?_some h
  simpa using this

theorem findAsset_isSome_of_mem {assets : List AssetInfo} {a : AssetInfo}
    (h : a ∈ assets) : (findAsset assets a.name).isSome := by
  rw [findAsset, List.find?_isSome]
  exact ⟨a, h, by simp⟩

theorem findAsset_none_iff {assets : List AssetInfo} {n : String} :
    findAsset assets n = none ↔ ∀ a ∈ assets, a.name ≠ n := by
  rw [findAsset, List.find?_eq_none]
  simp

/-- `Array.prototype.find` returns the first match: when the lookup answers
`a`, the list splits as `u ++ a :: v` with no asset in `u` named `n`. -/
theorem findAsset_first {assets : List AssetInfo} {n : String} {a : AssetInfo}
    (h : findAsset assets n = some a) :
    a.name = n ∧ ∃ u v, assets = u ++ a :: v ∧ ∀ x ∈ u, x.name ≠ n := by
  refine ⟨(findAsset_name h).2, ?_⟩
  induction assets with
  | nil => simp [findAsset] at h
  | cons b rest ih =>
    by_cases hb : b.name = n
    · have : findAsset (b :: rest) n = some b := by
        simp [findAsset, List.find?_cons_of_pos, hb]
      rw [this] at h
      obtain rfl := Option.some.inj h
      exact ⟨[], rest, rfl, by simp⟩
    · have : findAsset (b :: rest) n = findAsset rest n := by
        simp [findAsset]
        rw [List.find?_cons_of_neg]
        simp [hb]
      rw [this] at h
      obtain ⟨u, v, huv, hu⟩ := ih h
      exact ⟨b :: u, v, by simp [huv], by
        intro x hx
        rcases List.mem_cons.mp hx with rfl | hx
        · exact hb
        · exact hu x hx⟩

theorem edge_mem {assets : List AssetInfo} {m n : String} (h : Edge assets m n) :
    ∃ a ∈ assets, a.name = m ∧ n ∈ a.depends := by
  obtain ⟨a, ha, hn⟩ := h
  obtain ⟨hmem, hname⟩ := findAsset_name ha
  exact ⟨a, hmem, hname, hn⟩

/-- Acyclicity from a rank function that strictly decreases along edges. -/
theorem acyclic_of_rank (assets : List AssetInfo) (rank : String → Nat)
    (h : ∀ m n, Edge assets m n → rank n < rank m) : Acyclic assets := by
  intro n hn
  have hlt : ∀ x y, Relation.TransGen (Edge assets) x y → rank y < rank x := by
    intro x y hxy
    induction hxy with
    | single e => exact h _ _ e
    | tail _ e ih => exact lt_trans (h _ _ e) ih
  exact lt_irrefl _ (hlt n n hn)

/-! ### `sliceFrom` facts -/

theorem sliceFrom_eq_cons {a : String} {l : List String} (h : a ∈ l) :
    ∃ t, sliceFrom a l = a :: t := by
  induction l with
  | nil => simp at h
  | cons b bs ih =>
    by_cases hb : b = a
    · subst hb; exact ⟨bs, by simp [sliceFrom]⟩
    · rcases List.mem_cons.mp h with rfl | h2
      · exact absurd rfl hb
      · obtain ⟨t, ht⟩ := ih h2
        exact ⟨t, by simp [sliceFrom, hb, ht]⟩

theorem mem_sliceFrom_concat {a b : String} {l : List String} (h : a ∈ l) :
    b ∈ sliceFrom a (l ++ [b]) := by
  induction l with
  | nil => simp at h
  | cons c cs ih =>
    by_cases hc : c = a
    · simp [sliceFrom, hc]
    · rcases List.mem_cons.mp h with rfl | h2
      · exact absurd rfl hc
      · simpa [sliceFrom, hc] using ih h2

theorem mem_sliceFrom_self {a : String} {l : List String} :
    a ∈ sliceFrom a l ++ [a] := by
  simp

/-! ### Cycle detector: shape of one step and state monotonicity -/

theorem dfsCD_succ (assets : List AssetInfo) (fuel : Nat) :
    dfsCD assets (fuel + 1) = dfsCDStep assets (dfsCD assets fuel) := rfl

theorem dfsCD_some_succ {assets : List AssetInfo} {fuel : Nat} {n : String}
    {p : List String} {s s' : CDState} (h : dfsCD assets fuel n p s = some s') :
    ∃ f, fuel = f + 1 := by
  cases fuel with
  | zero => simp [dfsCD] at h
  | succ f => exact ⟨f, rfl⟩

/-- The recursion-stack hit branch (lines 1322-1328): state returned verbatim,
with the cycle `path.slice(path.indexOf(n)) ++ [n]` appended when `n ∈ path`. -/
theorem dfsCD_hit {assets : List AssetInfo} {fuel : Nat} {n : String}
    {p : List String} {s s' : CDState} (h : dfsCD assets fuel n p s = some s')
    (hrs : n ∈ s.recStack) :
    s' = (if n ∈ p then
      (⟨s.cycles ++ [sliceFrom n p ++ [n]], s.visited, s.recStack⟩ : CDState)
    else s) := by
  obtain ⟨f, rfl⟩ := dfsCD_some_succ h
  rw [dfsCD_succ, dfsCDStep] at h
  rw [if_pos hrs] at h
  exact (Option.some.inj h).symm

theorem dfsCD_visited_hit {assets : List AssetInfo} {fuel : Nat} {n : String}
    {p : List String} {s s' : CDState} (h : dfsCD assets fuel n p s = some s')
    (hrs : n ∉ s.recStack) (hv : n ∈ s.visited) : s' = s := by
  obtain ⟨f, rfl⟩ := dfsCD_some_succ h
  rw [dfsCD_succ, dfsCDStep] at h
  rw [if_neg hrs, if_pos hv] at h
  exact (Option.some.inj h).symm

/-- State evolution of one `dfs` call: the recursion stack is restored
exactly, `visited` only grows, recorded cycles persist. -/
def CDLe (s s' : CDState) : Prop :=
  s'.recStack = s.recStack ∧ (∀ x ∈ s.visited, x ∈ s'.visited) ∧
    ∀ c ∈ s.cycles, c ∈ s'.cycles

theorem CDLe_refl (s : CDState) : CDLe s s := ⟨rfl, fun _ h => h, fun _ h => h⟩

theorem CDLe_trans {s t u : CDState} (h1 : CDLe s t) (h2 : CDLe t u) : CDLe s u :=
  ⟨h2.1.trans h1.1, fun x hx => h2.2.1 x (h1.2.1 x hx), fun c hc => h2.2.2 c (h1.2.2 c hc)⟩

theorem dfsDepsRun_le {rec : String → CDState → Option CDState}
    (hrec : ∀ d t t', rec d t = some t' → CDLe t t') :
    ∀ ds s s', dfsDepsRun rec ds s = some s' → CDLe s s' := by
  intro ds
  induction ds with
  | nil => intro s s' h; obtain rfl := Option.some.inj h; exact CDLe_refl s
  | cons d rest ih =>
    intro s s' h
    rw [dfsDepsRun] at h
    cases hd : rec d s with
    | none => rw [hd] at h; exact absurd h (by simp)
    | some s1 =>
      rw [hd] at h
      exact CDLe_trans (hrec d s s1 hd) (ih s1 s' h)

theorem dfsCD_le {assets : List AssetInfo} :
    ∀ fuel n p s s', dfsCD assets fuel n p s = some s' → CDLe s s' := by
  intro fuel
  induction fuel with
  | zero => intro n p s s' h; simp [dfsCD] at h
  | succ f ih =>
    intro n p s s' h
    rw [dfsCD_succ, dfsCDStep] at h
    by_cases hrs : n ∈ s.recStack
    · rw [if_pos hrs] at h
      obtain rfl := Option.some.inj h
      split
      · exact ⟨rfl, fun x hx => hx, fun c hc => by simp [hc]⟩
      · exact CDLe_refl s
    · rw [if_neg hrs] at h
      by_cases hv : n ∈ s.visited
      · rw [if_pos hv] at h
        obtain rfl := Option.some.inj h
        exact CDLe_refl s
      · rw [if_neg hv] at h
        cases hfa : findAsset assets n with
        | some asset =>
          rw [hfa] at h
          dsimp only at h
          cases hruns : dfsDepsRun (fun d st => dfsCD assets f d (p ++ [n]) st)
              asset.depends ⟨s.cycles, n :: s.visited, n :: s.recStack⟩ with
          | none => rw [hruns] at h; exact absurd h (by simp)
          | some s2 =>
            rw [hruns] at h
            obtain rfl := Option.some.inj h
            have hle : CDLe ⟨s.cycles, n :: s.visited, n :: s.recStack⟩ s2 :=
              dfsDepsRun_le (fun d t t' ht => ih d (p ++ [n]) t t' ht) _ _ _ hruns
            refine ⟨?_, fun x hx => hle.2.1 x (by simp [hx]), fun c hc => hle.2.2 c hc⟩
            show s2.recStack.erase n = s.recStack
            rw [hle.1]
            exact List.erase_cons_head n s.recStack
        | none =>
          rw [hfa] at h
          dsimp only at h
          obtain rfl := Option.some.inj h
          exact ⟨List.erase_cons_head n s.recStack, fun x hx => by simp [hx], fun c hc => hc⟩

theorem cdOuter_le {assets : List AssetInfo} {fuel : Nat} :
    ∀ lst s s', cdOuter assets fuel lst s = some s' → CDLe s s' := by
  intro lst
  induction lst with
  | nil => intro s s' h; obtain rfl := Option.some.inj h; exact CDLe_refl s
  | cons a rest ih =>
    intro s s' h
    rw [cdOuter] at h
    by_cases hv : a.name ∈ s.visited
    · rw [if_pos hv] at h; exact ih s s' h
    · rw [if_neg hv] at h
      cases hd : dfsCD assets fuel a.name [] s with
      | none => rw [hd] at h; exact absurd h (by simp)
      | some s1 =>
        rw [hd] at h
        exact CDLe_trans (dfsCD_le fuel a.name [] s s1 hd) (ih s1 s' h)

/-! ### Filter-length helpers for the termination measure -/

theorem length_filter_le_filter {α : Type} {l : List α} {p q : α → Bool}
    (h : ∀ a ∈ l, q a = true → p a = true) :
    (l.filter q).length ≤ (l.filter p).length := by
  induction l with
  | nil => simp
  | cons b bs ih =>
    have hbs : ∀ a ∈ bs, q a = true → p a = true := fun a ha => h a (by simp [ha])
    by_cases hq : q b = true
    · have hp : p b = true := h b (by simp) hq
      simp [List.filter_cons, hq, hp]
      exact ih hbs
    · simp only [List.filter_cons, Bool.not_eq_true] at hq ⊢
      rw [hq]
      simp only [Bool.false_eq_true, if_false]
      by_cases hp : p b = true
      · rw [hp]
        simp only [if_true]
        exact le_trans (ih hbs) (by simp)
      · simp only [Bool.not_eq_true] at hp
        rw [hp]
        simp only [Bool.false_eq_true, if_false]
        exact ih hbs

theorem length_filter_lt_filter {α : Type} {l : List α} {p q : α → Bool}
    (h : ∀ a ∈ l, q a = true → p a = true) {a : α} (ha : a ∈ l)
    (hpa : p a = true) (hqa : ¬ q a = true) :
    (l.filter q).length < (l.filter p).length := by
  induction l with
  | nil => simp at ha
  | cons b bs ih =>
    have hbs : ∀ x ∈ bs, q x = true → p x = true := fun x hx => h x (by simp [hx])
    rcases List.mem_cons.mp ha with rfl | ha2
    · have hqb : q a = false := by
        cases hq2 : q a with
        | false => rfl
        | true => exact absurd hq2 hqa
      simp only [List.filter_cons, hqb, Bool.false_eq_true, if_false, hpa, if_true]
      exact Nat.lt_succ_of_le (length_filter_le_filter hbs)
    · by_cases hq : q b = true
      · have hp : p b = true := h b (by simp) hq
        simp only [List.filter_cons, hq, if_true, hp, List.length_cons]
        exact Nat.succ_lt_succ (ih hbs ha2)
      · simp only [Bool.not_eq_true] at hq
        simp only [List.filter_cons, hq, Bool.false_eq_true, if_false]
        by_cases hp : p b = true
        · rw [hp]
          simp only [if_true, List.length_cons]
          exact Nat.lt_succ_of_lt (ih hbs ha2)
        · simp only [Bool.not_eq_true] at hp
          rw [hp]
          simp only [Bool.false_eq_true, if_false]
          exact ih hbs ha2

/-! ### Totality of the cycle detector (each name visited to completion once) -/

/-- Number of asset names not yet visited: the termination measure. -/
def cdMeasure (assets : List AssetInfo) (s : CDState) : Nat :=
  ((assets.map (fun a => a.name)).filter (fun x => decide (x ∉ s.visited))).length

theorem cdMeasure_le (assets : List AssetInfo) (s : CDState) :
    cdMeasure assets s ≤ assets.length := by
  unfold cdMeasure
  exact le_trans (List.length_filter_le _ _) (by simp)

theorem cdMeasure_mono {assets : List AssetInfo} {s s' : CDState}
    (h : ∀ x ∈ s.visited, x ∈ s'.visited) :
    cdMeasure assets s' ≤ cdMeasure assets s := by
  apply length_filter_le_filter
  intro a _ hq
  simp only [decide_eq_true_eq] at hq ⊢
  intro hmem
  exact hq (h a hmem)

theorem cdMeasure_lt {assets : List AssetInfo} {s : CDState} {n : String}
    (hn : n ∈ assets.map (fun a => a.name)) (hnv : n ∉ s.visited) :
    cdMeasure assets ⟨s.cycles, n :: s.visited, n :: s.recStack⟩ < cdMeasure assets s := by
  apply length_filter_lt_filter (a := n)
  · intro a _ hq
    simp only [decide_eq_true_eq] at hq ⊢
    intro hmem
    exact hq (by simp [hmem])
  · exact hn
  · simpa using hnv
  · simp

theorem dfsDepsRun_isSome {assets : List AssetInfo} {k : Nat}
    {rec : String → CDState → Option CDState}
    (hrec_some : ∀ d t, cdMeasure assets t < k → (rec d t).isSome)
    (hrec_le : ∀ d t t', rec d t = some t' → CDLe t t') :
    ∀ ds s, cdMeasure assets s < k → (dfsDepsRun rec ds s).isSome := by
  intro ds
  induction ds with
  | nil => intro s _; simp [dfsDepsRun]
  | cons d rest ih =>
    intro s hs
    rw [dfsDepsRun]
    cases hd : rec d s with
    | none =>
      have := hrec_some d s hs
      rw [hd] at this
      simp at this
    | some s1 =>
      have hle := hrec_le d s s1 hd
      exact ih s1 (lt_of_le_of_lt (cdMeasure_mono hle.2.1) hs)

theorem cd_total {assets : List AssetInfo} :
    ∀ fuel n p s, cdMeasure assets s < fuel → (dfsCD assets fuel n p s).isSome := by
  intro fuel
  induction fuel with
  | zero => intro n p s hs; exact absurd hs (by simp)
  | succ f ih =>
    intro n p s hs
    rw [dfsCD_succ, dfsCDStep]
    by_cases hrs : n ∈ s.recStack
    · rw [if_pos hrs]; simp
    · rw [if_neg hrs]
      by_cases hv : n ∈ s.visited
      · rw [if_pos hv]; simp
      · rw [if_neg hv]
        cases hfa : findAsset assets n with
        | some asset =>
          dsimp only
          have hname : n ∈ assets.map (fun a => a.name) := by
            obtain ⟨hmem, hn⟩ := findAsset_name hfa
            exact List.mem_map.mpr ⟨asset, hmem, hn⟩
          have hs1 : cdMeasure assets ⟨s.cycles, n :: s.visited, n :: s.recStack⟩ < f :=
            lt_of_lt_of_le (cdMeasure_lt hname hv) (Nat.lt_succ_iff.mp hs)
          have hrun := dfsDepsRun_isSome (k := f)
            (fun d t ht => ih d (p ++ [n]) t ht)
            (fun d t t' ht => dfsCD_le f d (p ++ [n]) t t' ht)
            asset.depends ⟨s.cycles, n :: s.visited, n :: s.recStack⟩ hs1
          cases hruns : dfsDepsRun (fun d st => dfsCD assets f d (p ++ [n]) st)
              asset.depends ⟨s.cycles, n :: s.visited, n :: s.recStack⟩ with
          | none => rw [hruns] at hrun; simp at hrun
          | some s2 => simp [hruns]
        | none => simp

theorem cdOuter_total {assets : List AssetInfo} {fuel : Nat} :
    ∀ lst s, cdMeasure assets s < fuel → (cdOuter assets fuel lst s).isSome := by
  intro lst
  induction lst with
  | nil => intro s _; simp [cdOuter]
  | cons a rest ih =>
    intro s hs
    rw [cdOuter]
    by_cases hv : a.name ∈ s.visited
    · rw [if_pos hv]; exact ih s hs
    · rw [if_neg hv]
      have := cd_total fuel a.name [] s hs
      cases hd : dfsCD assets fuel a.name [] s with
      | none => rw [hd] at this; simp at this
      | some s1 =>
        have hle := dfsCD_le fuel a.name [] s s1 hd
        exact ih s1 (lt_of_le_of_lt (cdMeasure_mono hle.2.1) hs)

/-- The wrapper's fuel budget always suffices: the full run returns a final
state; `findCircularDependencies` extracts its `cycles` field. -/
theorem findCircularDependencies_run (assets : List AssetInfo) :
    ∃ s, cdOuter assets (assets.length + 1) assets ⟨[], [], []⟩ = some s ∧
      findCircularDependencies assets = s.cycles := by
  have h0 : cdMeasure assets ⟨[], [], []⟩ < assets.length + 1 :=
    Nat.lt_succ_of_le (cdMeasure_le assets _)
  have := @cdOuter_total assets (assets.length + 1) assets ⟨[], [], []⟩ h0
  cases hrun : cdOuter assets (assets.length + 1) assets ⟨[], [], []⟩ with
  | none => rw [hrun] at this; simp at this
  | some s => exact ⟨s, rfl, by rw [findCircularDependencies, hrun]⟩

/-! ### Visited coverage: every asset name is visited by the outer loop -/

/-- Invariant: the recursion stack only holds visited names. -/
def CDInv (s : CDState) : Prop := ∀ x ∈ s.recStack, x ∈ s.visited

theorem dfsDepsRun_inv {rec : String → CDState → Option CDState}
    (hrec : ∀ d t t', CDInv t → rec d t = some t' → CDInv t') :
    ∀ ds s s', CDInv s → dfsDepsRun rec ds s = some s' → CDInv s' := by
  intro ds
  induction ds with
  | nil => intro s s' hi h; obtain rfl := Option.some.inj h; exact hi
  | cons d rest ih =>
    intro s s' hi h
    rw [dfsDepsRun] at h
    cases hd : rec d s with
    | none => rw [hd] at h; exact absurd h (by simp)
    | some s1 =>
      rw [hd] at h
      exact ih s1 s' (hrec d s s1 hi hd) h

theorem dfsCD_inv {assets : List AssetInfo} :
    ∀ fuel n p s s', CDInv s → dfsCD assets fuel n p s = some s' → CDInv s' := by
  intro fuel
  induction fuel with
  | zero => intro n p s s' _ h; simp [dfsCD] at h
  | succ f ih =>
    intro n p s s' hi h
    rw [dfsCD_succ, dfsCDStep] at h
    by_cases hrs : n ∈ s.recStack
    · rw [if_pos hrs] at h
      obtain rfl := Option.some.inj h
      split <;> exact hi
    · rw [if_neg hrs] at h
      by_cases hv : n ∈ s.visited
      · rw [if_pos hv] at h
        obtain rfl := Option.some.inj h
        exact hi
      · rw [if_neg hv] at h
        cases hfa : findAsset assets n with
        | some asset =>
          rw [hfa] at h
          dsimp only at h
          have hi1 : CDInv ⟨s.cycles, n :: s.visited, n :: s.recStack⟩ := by
            intro x hx
            rcases List.mem_cons.mp hx with rfl | hx2
            · simp
            · simp [hi x hx2]
          cases hruns : dfsDepsRun (fun d st => dfsCD assets f d (p ++ [n]) st)
              asset.depends ⟨s.cycles, n :: s.visited, n :: s.recStack⟩ with
          | none => rw [hruns] at h; exact absurd h (by simp)
          | some s2 =>
            rw [hruns] at h
            obtain rfl := Option.some.inj h
            have hi2 : CDInv s2 :=
              dfsDepsRun_inv (fun d t t' ht hd => ih d (p ++ [n]) t t' ht hd) _ _ _ hi1 hruns
            intro x hx
            exact hi2 x (List.mem_of_mem_erase hx)
        | none =>
          rw [hfa] at h
          dsimp only at h
          obtain rfl := Option.some.inj h
          intro x hx
          have hx2 := List.mem_of_mem_erase hx
          rcases List.mem_cons.mp hx2 with rfl | hx3
          · simp
          · simp [hi x hx3]

theorem dfsCD_visits {assets : List AssetInfo} :
    ∀ fuel n p s s', CDInv s → dfsCD assets fuel n p s = some s' → n ∈ s'.visited := by
  intro fuel n p s s' hi h
  obtain ⟨f, rfl⟩ := dfsCD_some_succ h
  rw [dfsCD_succ, dfsCDStep] at h
  by_cases hrs : n ∈ s.recStack
  · rw [if_pos hrs] at h
    obtain rfl := Option.some.inj h
    have := hi n hrs
    split <;> simpa using this
  · rw [if_neg hrs] at h
    by_cases hv : n ∈ s.visited
    · rw [if_pos hv] at h
      obtain rfl := Option.some.inj h
      exact hv
    · rw [if_neg hv] at h
      cases hfa : findAsset assets n with
      | some asset =>
        rw [hfa] at h
        dsimp only at h
        cases hruns : dfsDepsRun (fun d st => dfsCD assets f d (p ++ [n]) st)
            asset.depends ⟨s.cycles, n :: s.visited, n :: s.recStack⟩ with
        | none => rw [hruns] at h; exact absurd h (by simp)
        | some s2 =>
          rw [hruns] at h
          obtain rfl := Option.some.inj h
          have hle : CDLe ⟨s.cycles, n :: s.visited, n :: s.recStack⟩ s2 :=
            dfsDepsRun_le (fun d t t' ht => dfsCD_le f d (p ++ [n]) t t' ht) _ _ _ hruns
          exact hle.2.1 n (by simp)
      | none =>
        rw [hfa] at h
        dsimp only at h
        obtain rfl := Option.some.inj h
        simp

theorem cdOuter_covers {assets : List AssetInfo} {fuel : Nat} :
    ∀ lst s s', CDInv s → cdOuter assets fuel lst s = some s' →
      ∀ a ∈ lst, a.name ∈ s'.visited := by
  intro lst
  induction lst with
  | nil => intro s s' _ _ a ha; simp at ha
  | cons b rest ih =>
    intro s s' hi h a ha
    rw [cdOuter] at h
    by_cases hv : b.name ∈ s.visited
    · rw [if_pos hv] at h
      rcases List.mem_cons.mp ha with rfl | ha2
      · exact (cdOuter_le rest s s' h).2.1 a.name hv
      · exact ih s s' hi h a ha2
    · rw [if_neg hv] at h
      cases hd : dfsCD assets fuel b.name [] s with
      | none => rw [hd] at h; exact absurd h (by simp)
      | some s1 =>
        rw [hd] at h
        have hi1 := dfsCD_inv fuel b.name [] s s1 hi hd
        rcases List.mem_cons.mp ha with rfl | ha2
        · have := dfsCD_visits fuel a.name [] s s1 hi hd
          exact (cdOuter_le rest s1 s' h).2.1 a.name this
        · exact ih s1 s' hi1 h a ha2

/-! ### Generic state-predicate preservation -/

theorem dfsDepsRun_pred {P : CDState → Prop} {rec : String → CDState → Option CDState}
    (hrec : ∀ d t t', P t → rec d t = some t' → P t') :
    ∀ ds s s', P s → dfsDepsRun rec ds s = some s' → P s' := by
  intro ds
  induction ds with
  | nil => intro s s' hp h; obtain rfl := Option.some.inj h; exact hp
  | cons d rest ih =>
    intro s s' hp h
    rw [dfsDepsRun] at h
    cases hd : rec d s with
    | none => rw [hd] at h; exact absurd h (by simp)
    | some s1 => rw [hd] at h; exact ih s1 s' (hrec d s s1 hp hd) h

theorem cdOuter_pred {assets : List AssetInfo} {fuel : Nat} {P : CDState → Prop}
    (hrec : ∀ n s s', P s → dfsCD assets fuel n [] s = some s' → P s') :
    ∀ lst s s', P s → cdOuter assets fuel lst s = some s' → P s' := by
  intro lst
  induction lst with
  | nil => intro s s' hp h; obtain rfl := Option.some.inj h; exact hp
  | cons a rest ih =>
    intro s s' hp h
    rw [cdOuter] at h
    by_cases hv : a.name ∈ s.visited
    · rw [if_pos hv] at h; exact ih s s' hp h
    · rw [if_neg hv] at h
      cases hd : dfsCD assets fuel a.name [] s with
      | none => rw [hd] at h; exact absurd h (by simp)
      | some s1 => rw [hd] at h; exact ih s1 s' (hrec a.name s s1 hp hd) h

/-! ### Shape of every recorded cycle (length ≥ 2, first = last) -/

/-- Every recorded cycle has length at least two and equal first and last
elements. -/
def CyclesOK (s : CDState) : Prop :=
  ∀ c ∈ s.cycles, 2 ≤ c.length ∧ c.head? = c.getLast?

theorem pushed_cycle_shape {n : String} {p : List String} (hp : n ∈ p) :
    2 ≤ (sliceFrom n p ++ [n]).length ∧
      (sliceFrom n p ++ [n]).head? = (sliceFrom n p ++ [n]).getLast? := by
  obtain ⟨t, ht⟩ := sliceFrom_eq_cons hp
  rw [ht]
  refine ⟨by simp, ?_⟩
  rw [List.getLast?_concat]
  simp

theorem dfsCD_cyclesOK {assets : List AssetInfo} :
    ∀ fuel n p s s', CyclesOK s → dfsCD assets fuel n p s = some s' → CyclesOK s' := by
  intro fuel
  induction fuel with
  | zero => intro n p s s' _ h; simp [dfsCD] at h
  | succ f ih =>
    intro n p s s' hok h
    rw [dfsCD_succ, dfsCDStep] at h
    by_cases hrs : n ∈ s.recStack
    · rw [if_pos hrs] at h
      obtain rfl := Option.some.inj h
      by_cases hp : n ∈ p
      · rw [if_pos hp]
        intro c hc
        simp only [List.mem_append, List.mem_singleton] at hc
        rcases hc with hc | rfl
        · exact hok c hc
        · exact pushed_cycle_shape hp
      · rw [if_neg hp]; exact hok
    · rw [if_neg hrs] at h
      by_cases hv : n ∈ s.visited
      · rw [if_pos hv] at h
        obtain rfl := Option.some.inj h
        exact hok
      · rw [if_neg hv] at h
        cases hfa : findAsset assets n with
        | some asset =>
          rw [hfa] at h
          dsimp only at h
          cases hruns : dfsDepsRun (fun d st => dfsCD assets f d (p ++ [n]) st)
              asset.depends ⟨s.cycles, n :: s.visited, n :: s.recStack⟩ with
          | none => rw [hruns] at h; exact absurd h (by simp)
          | some s2 =>
            rw [hruns] at h
            obtain rfl := Option.some.inj h
            have hok1 : CyclesOK ⟨s.cycles, n :: s.visited, n :: s.recStack⟩ := hok
            have hok2 : CyclesOK s2 :=
              dfsDepsRun_pred (P := CyclesOK)
                (fun d t t' ht hd => ih d (p ++ [n]) t t' ht hd)
                asset.depends _ s2 hok1 hruns
            exact hok2
        | none =>
          rw [hfa] at h
          dsimp only at h
          obtain rfl := Option.some.inj h
          exact hok

theorem findCircularDependencies_shape (assets : List AssetInfo) :
    ∀ c ∈ findCircularDependencies assets, 2 ≤ c.length ∧ c.head? = c.getLast? := by
  obtain ⟨s, hrun, heq⟩ := findCircularDependencies_run assets
  rw [heq]
  have : CyclesOK s :=
    cdOuter_pred (fun n t t' ht hd => dfsCD_cyclesOK _ n [] t t' ht hd)
      assets ⟨[], [], []⟩ s (by intro c hc; simp at hc) hrun
  exact this

/-! ### Acyclic graphs yield no recorded cycle -/

theorem chain_getLast_transGen {r : String → String → Prop} :
    ∀ (l : List String) (a b : String), List.Chain r a l → l.getLast? = some b →
      Relation.TransGen r a b := by
  intro l
  induction l with
  | nil => intro a b _ hlast; simp at hlast
  | cons x xs ih =>
    intro a b hchain hlast
    rw [List.chain_cons] at hchain
    cases xs with
    | nil =>
      simp at hlast
      subst hlast
      exact Relation.TransGen.single hchain.1
    | cons y ys =>
      have hlast2 : (y :: ys).getLast? = some b := by
        rw [← hlast]
        simp [List.getLast?]
      exact Relation.TransGen.head hchain.1 (ih x b hchain.2 hlast2)

theorem chain'_mem_transGen {assets : List AssetInfo} {p : List String} {n : String}
    (hc : List.Chain' (Edge assets) (p ++ [n])) (hn : n ∈ p) :
    Relation.TransGen (Edge assets) n n := by
  obtain ⟨u, v, rfl⟩ := List.append_of_mem hn
  have hassoc : (u ++ n :: v) ++ [n] = u ++ (n :: (v ++ [n])) := by simp
  rw [hassoc] at hc
  have hc2 : List.Chain' (Edge assets) (n :: (v ++ [n])) :=
    hc.right_of_append
  have hchain : List.Chain (Edge assets) n (v ++ [n]) := hc2
  exact chain_getLast_transGen _ n n hchain (List.getLast?_concat _)

theorem dfsDepsRun_nocycles {assets : List AssetInfo} {fuel : Nat} {p' : List String}
    (hrec : ∀ d t t', List.Chain' (Edge assets) (p' ++ [d]) →
      dfsCD assets fuel d p' t = some t' → t'.cycles = t.cycles) :
    ∀ ds s s', (∀ d ∈ ds, List.Chain' (Edge assets) (p' ++ [d])) →
      dfsDepsRun (fun d st => dfsCD assets fuel d p' st) ds s = some s' →
      s'.cycles = s.cycles := by
  intro ds
  induction ds with
  | nil => intro s s' _ h; obtain rfl := Option.some.inj h; rfl
  | cons d rest ih =>
    intro s s' hch h
    rw [dfsDepsRun] at h
    cases hd : dfsCD assets fuel d p' s with
    | none => rw [hd] at h; exact absurd h (by simp)
    | some s1 =>
      rw [hd] at h
      have h1 := hrec d s s1 (hch d (by simp)) hd
      have h2 := ih s1 s' (fun x hx => hch x (by simp [hx])) h
      rw [h2, h1]

theorem dfsCD_nocycles {assets : List AssetInfo} (hacyc : Acyclic assets) :
    ∀ fuel n p s s', List.Chain' (Edge assets) (p ++ [n]) →
      dfsCD assets fuel n p s = some s' → s'.cycles = s.cycles := by
  intro fuel
  induction fuel with
  | zero => intro n p s s' _ h; simp [dfsCD] at h
  | succ f ih =>
    intro n p s s' hch h
    rw [dfsCD_succ, dfsCDStep] at h
    by_cases hrs : n ∈ s.recStack
    · rw [if_pos hrs] at h
      have hp : n ∉ p := fun hp => absurd (chain'_mem_transGen hch hp) (hacyc n)
      rw [if_neg hp] at h
      obtain rfl := Option.some.inj h
      rfl
    · rw [if_neg hrs] at h
      by_cases hv : n ∈ s.visited
      · rw [if_pos hv] at h
        obtain rfl := Option.some.inj h
        rfl
      · rw [if_neg hv] at h
        cases hfa : findAsset assets n with
        | some asset =>
          rw [hfa] at h
          dsimp only at h
          cases hruns : dfsDepsRun (fun d st => dfsCD assets f d (p ++ [n]) st)
              asset.depends ⟨s.cycles, n :: s.visited, n :: s.recStack⟩ with
          | none => rw [hruns] at h; exact absurd h (by simp)
          | some s2 =>
            rw [hruns] at h
            obtain rfl := Option.some.inj h
            have hchild : ∀ d ∈ asset.depends,
                List.Chain' (Edge assets) ((p ++ [n]) ++ [d]) := by
              intro d hd
              rw [List.chain'_append]
              refine ⟨hch, by simp, ?_⟩
              intro x hx y hy
              rw [List.getLast?_concat] at hx
              simp at hx hy
              subst hx; subst hy
              exact ⟨asset, hfa, hd⟩
            have := dfsDepsRun_nocycles
              (fun d t t' hcd hdd => ih d (p ++ [n]) t t' hcd hdd)
              asset.depends _ s2 hchild hruns
            exact this
        | none =>
          rw [hfa] at h
          dsimp only at h
          obtain rfl := Option.some.inj h
          rfl

theorem findCircularDependencies_acyclic {assets : List AssetInfo}
    (hacyc : Acyclic assets) : findCircularDependencies assets = [] := by
  obtain ⟨s, hrun, heq⟩ := findCircularDependencies_run assets
  rw [heq]
  have hcyc : ∀ lst t t', cdOuter assets (assets.length + 1) lst t = some t' →
      t'.cycles = t.cycles := by
    intro lst
    induction lst with
    | nil => intro t t' h; obtain rfl := Option.some.inj h; rfl
    | cons a rest ih =>
      intro t t' h
      rw [cdOuter] at h
      by_cases hv : a.name ∈ t.visited
      · rw [if_pos hv] at h; exact ih t t' h
      · rw [if_neg hv] at h
        cases hd : dfsCD assets (assets.length + 1) a.name [] t with
        | none => rw [hd] at h; exact absurd h (by simp)
        | some t1 =>
          rw [hd] at h
          have h1 := dfsCD_nocycles hacyc (assets.length + 1) a.name [] t t1
            (by simp) hd
          rw [ih t1 t' h, h1]
  exact hcyc assets ⟨[], [], []⟩ s hrun

/-! ### Recorded cycles never start at an unknown name -/

/-- Invariant for the missing-node safety claim: the recursion stack holds
only resolvable names, and every recorded cycle starts at a resolvable name. -/
def HeadsReso (assets : List AssetInfo) (s : CDState) : Prop :=
  (∀ x ∈ s.recStack, (findAsset assets x).isSome) ∧
    ∀ c ∈ s.cycles, ∀ n, c.head? = some n → (findAsset assets n).isSome

theorem dfsCD_headsReso {assets : List AssetInfo} :
    ∀ fuel n p s s', HeadsReso assets s → dfsCD assets fuel n p s = some s' →
      HeadsReso assets s' := by
  intro fuel
  induction fuel with
  | zero => intro n p s s' _ h; simp [dfsCD] at h
  | succ f ih =>
    intro n p s s' hr h
    rw [dfsCD_succ, dfsCDStep] at h
    by_cases hrs : n ∈ s.recStack
    · rw [if_pos hrs] at h
      obtain rfl := Option.some.inj h
      by_cases hp : n ∈ p
      · rw [if_pos hp]
        refine ⟨hr.1, ?_⟩
        intro c hc m hm
        simp only [List.mem_append, List.mem_singleton] at hc
        rcases hc with hc | rfl
        · exact hr.2 c hc m hm
        · obtain ⟨t, ht⟩ := sliceFrom_eq_cons hp
          rw [ht] at hm
          simp at hm
          cases hm
          exact hr.1 _ hrs
      · rw [if_neg hp]; exact hr
    · rw [if_neg hrs] at h
      by_cases hv : n ∈ s.visited
      · rw [if_pos hv] at h
        obtain rfl := Option.some.inj h
        exact hr
      · rw [if_neg hv] at h
        cases hfa : findAsset assets n with
        | some asset =>
          rw [hfa] at h
          dsimp only at h
          cases hruns : dfsDepsRun (fun d st => dfsCD assets f d (p ++ [n]) st)
              asset.depends ⟨s.cycles, n :: s.visited, n :: s.recStack⟩ with
          | none => rw [hruns] at h; exact absurd h (by simp)
          | some s2 =>
            rw [hruns] at h
            obtain rfl := Option.some.inj h
            have hr1 : HeadsReso assets ⟨s.cycles, n :: s.visited, n :: s.recStack⟩ := by
              refine ⟨?_, hr.2⟩
              intro x hx
              rcases List.mem_cons.mp hx with rfl | hx2
              · simp [hfa]
              · exact hr.1 x hx2
            have hr2 : HeadsReso assets s2 :=
              dfsDepsRun_pred (P := HeadsReso assets)
                (fun d t t' ht hd => ih d (p ++ [n]) t t' ht hd) _ _ _ hr1 hruns
            refine ⟨?_, hr2.2⟩
            intro x hx
            exact hr2.1 x (List.mem_of_mem_erase hx)
        | none =>
          rw [hfa] at h
          dsimp only at h
          obtain rfl := Option.some.inj h
          refine ⟨?_, hr.2⟩
          intro x hx
          have hx2 : x ∈ (n :: s.recStack).erase n := hx
          rw [List.erase_cons_head] at hx2
          exact hr.1 x hx2

theorem findCircularDependencies_heads (assets : List AssetInfo) :
    ∀ c ∈ findCircularDependencies assets, ∀ n, c.head? = some n →
      (findAsset assets n).isSome := by
  obtain ⟨s, hrun, heq⟩ := findCircularDependencies_run assets
  rw [heq]
  have : HeadsReso assets s :=
    cdOuter_pred (fun n t t' ht hd => dfsCD_headsReso _ n [] t t' ht hd)
      assets ⟨[], [], []⟩ s ⟨by intro x hx; simp at hx, by intro c hc; simp at hc⟩ hrun
  exact this.2

/-! ### A two-cycle A↔B is always reported

The proof follows the execution: the first of the two names to be visited
drags the other into its subtree while it is still on the recursion stack,
and the back edge then hits the stack, recording a cycle through both. -/

/-- If `A` is on the recursion stack, lies on the current path, and occurs in
the remaining dependency list, the dependency loop records a cycle through
`A` and through the last path element `B`. -/
theorem depsHit {assets : List AssetInfo} {fuel : Nat} {A B : String}
    {qInit : List String} (hAq : A ∈ qInit ∨ A = B) :
    ∀ ds t t', A ∈ ds → A ∈ t.recStack →
      dfsDepsRun (fun d st => dfsCD assets fuel d (qInit ++ [B]) st) ds t = some t' →
      ∃ c ∈ t'.cycles, A ∈ c ∧ B ∈ c := by
  intro ds
  induction ds with
  | nil => intro t t' hA _ _; simp at hA
  | cons d rest ih =>
    intro t t' hA hrs h
    rw [dfsDepsRun] at h
    cases hd : dfsCD assets fuel d (qInit ++ [B]) t with
    | none => rw [hd] at h; exact absurd h (by simp)
    | some t1 =>
      rw [hd] at h
      by_cases hdA : d = A
      · subst hdA
        have hq : d ∈ qInit ++ [B] := by
          rcases hAq with hq | rfl
          · exact List.mem_append_left _ hq
          · exact List.mem_append_right _ (by simp)
        have ht1 := dfsCD_hit hd hrs
        rw [if_pos hq] at ht1
        set c : List String := sliceFrom d (qInit ++ [B]) ++ [d] with hc
        have hcmem : c ∈ t1.cycles := by
          rw [ht1]
          simp [hc]
        have hAc : d ∈ c := by simp [hc]
        have hBc : B ∈ c := by
          rcases hAq with hq2 | rfl
          · exact List.mem_append_left _ (mem_sliceFrom_concat hq2)
          · simp [hc]
        have hle := dfsDepsRun_le (fun x u u' hu => dfsCD_le fuel x (qInit ++ [B]) u u' hu)
          rest t1 t' h
        exact ⟨c, hle.2.2 c hcmem, hAc, hBc⟩
      · have hle := dfsCD_le fuel d (qInit ++ [B]) t t1 hd
        have hrs1 : A ∈ t1.recStack := by rw [hle.1]; exact hrs
        have hA1 : A ∈ rest := by
          rcases List.mem_cons.mp hA with rfl | h2
          · exact absurd rfl hdA
          · exact h2
        exact ih t1 t' hA1 hrs1 h

/-- Statement of the stack-hit lemma at a given fuel: a `dfs` call that
first visits `B` while `A` (with an edge `B → A`) is on the recursion stack
records a cycle through `A` and `B`. -/
def L3Stat (assets : List AssetInfo) (A B : String) (fuel : Nat) : Prop :=
  ∀ n path s s', dfsCD assets fuel n path s = some s' →
    A ∈ s.recStack → (∀ x ∈ s.recStack, x ∈ path) → CDInv s →
    B ∉ s.visited → B ∈ s'.visited →
    ∃ c ∈ s'.cycles, A ∈ c ∧ B ∈ c

theorem cdL3deps {assets : List AssetInfo} {A B : String} {fuel : Nat}
    {q : List String} (hL3 : L3Stat assets A B fuel) :
    ∀ ds t t', A ∈ t.recStack → (∀ x ∈ t.recStack, x ∈ q) → CDInv t →
      B ∉ t.visited →
      dfsDepsRun (fun d st => dfsCD assets fuel d q st) ds t = some t' →
      B ∈ t'.visited → ∃ c ∈ t'.cycles, A ∈ c ∧ B ∈ c := by
  intro ds
  induction ds with
  | nil =>
    intro t t' _ _ _ hBnv h hBv
    obtain rfl := Option.some.inj h
    exact absurd hBv hBnv
  | cons d rest ih =>
    intro t t' hrsA hsub hinv hBnv h hBv
    rw [dfsDepsRun] at h
    cases hd : dfsCD assets fuel d q t with
    | none => rw [hd] at h; exact absurd h (by simp)
    | some t1 =>
      rw [hd] at h
      by_cases hB1 : B ∈ t1.visited
      · obtain ⟨c, hc, hAc, hBc⟩ := hL3 d q t t1 hd hrsA hsub hinv hBnv hB1
        have hle := dfsDepsRun_le (fun x u u' hu => dfsCD_le fuel x q u u' hu) rest t1 t' h
        exact ⟨c, hle.2.2 c hc, hAc, hBc⟩
      · have hle := dfsCD_le fuel d q t t1 hd
        exact ih t1 t' (by rw [hle.1]; exact hrsA) (by rw [hle.1]; exact hsub)
          (dfsCD_inv fuel d q t t1 hinv hd) hB1 h hBv

theorem cdL3 {assets : List AssetInfo} {A B : String} (hBA : Edge assets B A) :
    ∀ fuel, L3Stat assets A B fuel := by
  intro fuel
  induction fuel with
  | zero => intro n path s s' h; simp [dfsCD] at h
  | succ f ih =>
    intro n path s s' h hrsA hsub hinv hBnv hBv
    rw [dfsCD_succ, dfsCDStep] at h
    by_cases hrs : n ∈ s.recStack
    · rw [if_pos hrs] at h
      obtain rfl := Option.some.inj h
      by_cases hp : n ∈ path
      · rw [if_pos hp] at hBv
        exact absurd hBv hBnv
      · rw [if_neg hp] at hBv
        exact absurd hBv hBnv
    · rw [if_neg hrs] at h
      by_cases hv : n ∈ s.visited
      · rw [if_pos hv] at h
        obtain rfl := Option.some.inj h
        exact absurd hBv hBnv
      · rw [if_neg hv] at h
        cases hfa : findAsset assets n with
        | none =>
          rw [hfa] at h
          dsimp only at h
          obtain rfl := Option.some.inj h
          have : B = n ∨ B ∈ s.visited := by simpa using hBv
          rcases this with rfl | hc
          · obtain ⟨b, hb, _⟩ := hBA
            rw [hfa] at hb
            exact absurd hb (by simp)
          · exact absurd hc hBnv
        | some asset =>
          rw [hfa] at h
          dsimp only at h
          cases hruns : dfsDepsRun (fun d st => dfsCD assets f d (path ++ [n]) st)
              asset.depends ⟨s.cycles, n :: s.visited, n :: s.recStack⟩ with
          | none => rw [hruns] at h; exact absurd h (by simp)
          | some s2 =>
            rw [hruns] at h
            obtain rfl := Option.some.inj h
            by_cases hnB : n = B
            · subst hnB
              obtain ⟨b, hb, hAb⟩ := hBA
              rw [hfa] at hb
              have hba : asset = b := Option.some.inj hb
              subst hba
              have hApath : A ∈ path := hsub A hrsA
              obtain ⟨c, hc, hAc, hBc⟩ :=
                depsHit (Or.inl hApath) asset.depends
                  ⟨s.cycles, n :: s.visited, n :: s.recStack⟩ s2 hAb (by simp [hrsA]) hruns
              exact ⟨c, hc, hAc, hBc⟩
            · have hsub1 : ∀ x ∈ n :: s.recStack, x ∈ path ++ [n] := by
                intro x hx
                rcases List.mem_cons.mp hx with rfl | hx2
                · exact List.mem_append_right _ (by simp)
                · exact List.mem_append_left _ (hsub x hx2)
              have hinv1 : CDInv ⟨s.cycles, n :: s.visited, n :: s.recStack⟩ := by
                intro x hx
                rcases List.mem_cons.mp hx with rfl | hx2
                · simp
                · simp [hinv x hx2]
              have hB1 : B ∉ (⟨s.cycles, n :: s.visited, n :: s.recStack⟩ : CDState).visited := by
                simp only [List.mem_cons]
                push_neg
                exact ⟨fun hBn => hnB hBn.symm, hBnv⟩
              exact cdL3deps ih asset.depends _ s2 (by simp [hrsA]) hsub1 hinv1 hB1
                hruns hBv

/-- Statement of the mutual-cycle lemma at a given fuel: if neither `A` nor
`B` is visited at call time and one of them is visited afterwards, a cycle
through both has been recorded. -/
def L2Stat (assets : List AssetInfo) (A B : String) (fuel : Nat) : Prop :=
  ∀ n path s s', dfsCD assets fuel n path s = some s' →
    A ∉ s.visited → B ∉ s.visited → (∀ x ∈ s.recStack, x ∈ path) → CDInv s →
    (A ∈ s'.visited ∨ B ∈ s'.visited) →
    ∃ c ∈ s'.cycles, A ∈ c ∧ B ∈ c

/-- Dependency loop of the first-visited endpoint `A`: when `B` occurs among
the remaining dependencies and `A` is still on the stack, a cycle through
both is recorded by the time the loop finishes. -/
theorem cdL2dep {assets : List AssetInfo} {A B : String} (hBA : Edge assets B A)
    {fuel : Nat} {q : List String} (hAq : A ∈ q) (hL3f : L3Stat assets A B fuel) :
    ∀ ds t t', B ∈ ds → A ∈ t.recStack → (∀ x ∈ t.recStack, x ∈ q) → CDInv t →
      B ∉ t.visited →
      dfsDepsRun (fun d st => dfsCD assets fuel d q st) ds t = some t' →
      ∃ c ∈ t'.cycles, A ∈ c ∧ B ∈ c := by
  intro ds
  induction ds with
  | nil => intro t t' hB _ _ _ _ _; simp at hB
  | cons d rest ih =>
    intro t t' hB hrsA hsub hinv hBnv h
    rw [dfsDepsRun] at h
    cases hd : dfsCD assets fuel d q t with
    | none => rw [hd] at h; exact absurd h (by simp)
    | some t1 =>
      rw [hd] at h
      by_cases hdB : d = B
      · subst hdB
        have hdrs : d ∉ t.recStack := fun hc => hBnv (hinv d hc)
        obtain ⟨f, rfl⟩ := dfsCD_some_succ hd
        rw [dfsCD_succ, dfsCDStep] at hd
        rw [if_neg hdrs, if_neg hBnv] at hd
        obtain ⟨b, hb, hAb⟩ := hBA
        rw [hb] at hd
        dsimp only at hd
        cases hruns : dfsDepsRun (fun x st => dfsCD assets f x (q ++ [d]) st)
            b.depends ⟨t.cycles, d :: t.visited, d :: t.recStack⟩ with
        | none => rw [hruns] at hd; exact absurd hd (by simp)
        | some t2 =>
          rw [hruns] at hd
          obtain rfl := Option.some.inj hd
          obtain ⟨c, hc, hAc, hBc⟩ :=
            depsHit (Or.inl hAq) b.depends
              ⟨t.cycles, d :: t.visited, d :: t.recStack⟩ t2 hAb (by simp [hrsA]) hruns
          have hle := dfsDepsRun_le (fun x u u' hu => dfsCD_le (f + 1) x q u u' hu)
            rest _ t' h
          exact ⟨c, hle.2.2 c (by exact hc), hAc, hBc⟩
      · by_cases hB1 : B ∈ t1.visited
        · obtain ⟨c, hc, hAc, hBc⟩ := hL3f d q t t1 hd hrsA hsub hinv hBnv hB1
          have hle := dfsDepsRun_le (fun x u u' hu => dfsCD_le fuel x q u u' hu) rest t1 t' h
          exact ⟨c, hle.2.2 c hc, hAc, hBc⟩
        · have hle := dfsCD_le fuel d q t t1 hd
          have hB2 : B ∈ rest := by
            rcases List.mem_cons.mp hB with rfl | h2
            · exact absurd rfl hdB
            · exact h2
          exact ih t1 t' hB2 (by rw [hle.1]; exact hrsA) (by rw [hle.1]; exact hsub)
            (dfsCD_inv fuel d q t t1 hinv hd) hB1 h

theorem cdL2deps {assets : List AssetInfo} {A B : String} {fuel : Nat}
    {q : List String} (hL2 : L2Stat assets A B fuel) :
    ∀ ds t t', A ∉ t.visited → B ∉ t.visited → (∀ x ∈ t.recStack, x ∈ q) → CDInv t →
      dfsDepsRun (fun d st => dfsCD assets fuel d q st) ds t = some t' →
      (A ∈ t'.visited ∨ B ∈ t'.visited) →
      ∃ c ∈ t'.cycles, A ∈ c ∧ B ∈ c := by
  intro ds
  induction ds with
  | nil =>
    intro t t' hAnv hBnv _ _ h hor
    obtain rfl := Option.some.inj h
    rcases hor with hA | hB
    · exact absurd hA hAnv
    · exact absurd hB hBnv
  | cons d rest ih =>
    intro t t' hAnv hBnv hsub hinv h hor
    rw [dfsDepsRun] at h
    cases hd : dfsCD assets fuel d q t with
    | none => rw [hd] at h; exact absurd h (by simp)
    | some t1 =>
      rw [hd] at h
      by_cases h1 : A ∈ t1.visited ∨ B ∈ t1.visited
      · obtain ⟨c, hc, hAc, hBc⟩ := hL2 d q t t1 hd hAnv hBnv hsub hinv h1
        have hle := dfsDepsRun_le (fun x u u' hu => dfsCD_le fuel x q u u' hu) rest t1 t' h
        exact ⟨c, hle.2.2 c hc, hAc, hBc⟩
      · push_neg at h1
        have hle := dfsCD_le fuel d q t t1 hd
        exact ih t1 t' h1.1 h1.2 (by rw [hle.1]; exact hsub)
          (dfsCD_inv fuel d q t t1 hinv hd) h hor

theorem cdL2 {assets : List AssetInfo} :
    ∀ fuel (A B : String), Edge assets A B → Edge assets B A →
      L2Stat assets A B fuel := by
  intro fuel
  induction fuel with
  | zero => intro A B _ _ n path s s' h; simp [dfsCD] at h
  | succ f ih =>
    intro A B hAB hBA n path s s' h hAnv hBnv hsub hinv hor
    rw [dfsCD_succ, dfsCDStep] at h
    by_cases hrs : n ∈ s.recStack
    · rw [if_pos hrs] at h
      obtain rfl := Option.some.inj h
      have : A ∈ s.visited ∨ B ∈ s.visited := by
        rcases hor with hA | hB
        · left; revert hA; split <;> exact fun hx => hx
        · right; revert hB; split <;> exact fun hx => hx
      rcases this with hA | hB
      · exact absurd hA hAnv
      · exact absurd hB hBnv
    · rw [if_neg hrs] at h
      by_cases hv : n ∈ s.visited
      · rw [if_pos hv] at h
        obtain rfl := Option.some.inj h
        rcases hor with hA | hB
        · exact absurd hA hAnv
        · exact absurd hB hBnv
      · rw [if_neg hv] at h
        cases hfa : findAsset assets n with
        | none =>
          rw [hfa] at h
          dsimp only at h
          obtain rfl := Option.some.inj h
          have : (A = n ∨ A ∈ s.visited) ∨ (B = n ∨ B ∈ s.visited) := by
            rcases hor with hA | hB
            · left; simpa using hA
            · right; simpa using hB
          rcases this with (rfl | hA) | (rfl | hB)
          · obtain ⟨a, ha, _⟩ := hAB
            rw [hfa] at ha
            exact absurd ha (by simp)
          · exact absurd hA hAnv
          · obtain ⟨b, hb, _⟩ := hBA
            rw [hfa] at hb
            exact absurd hb (by simp)
          · exact absurd hB hBnv
        | some asset =>
          rw [hfa] at h
          dsimp only at h
          cases hruns : dfsDepsRun (fun d st => dfsCD assets f d (path ++ [n]) st)
              asset.depends ⟨s.cycles, n :: s.visited, n :: s.recStack⟩ with
          | none => rw [hruns] at h; exact absurd h (by simp)
          | some s2 =>
            rw [hruns] at h
            obtain rfl := Option.some.inj h
            have hsub1 : ∀ x ∈ n :: s.recStack, x ∈ path ++ [n] := by
              intro x hx
              rcases List.mem_cons.mp hx with rfl | hx2
              · exact List.mem_append_right _ (by simp)
              · exact List.mem_append_left _ (hsub x hx2)
            have hinv1 : CDInv ⟨s.cycles, n :: s.visited, n :: s.recStack⟩ := by
              intro x hx
              rcases List.mem_cons.mp hx with rfl | hx2
              · simp
              · simp [hinv x hx2]
            by_cases hnA : n = A
            · subst hnA
              obtain ⟨a, ha, hBa⟩ := hAB
              rw [hfa] at ha
              have haa : asset = a := Option.some.inj ha
              subst haa
              by_cases hEq : n = B
              · subst hEq
                obtain ⟨c, hc, hAc, _⟩ :=
                  depsHit (A := n) (B := n) (Or.inr rfl)
                    asset.depends ⟨s.cycles, n :: s.visited, n :: s.recStack⟩ s2
                    hBa (by simp) hruns
                exact ⟨c, hc, hAc, hAc⟩
              · have hBnv1 : B ∉ (⟨s.cycles, n :: s.visited, n :: s.recStack⟩ : CDState).visited := by
                  simp only [List.mem_cons]
                  push_neg
                  exact ⟨fun hc => hEq hc.symm, hBnv⟩
                obtain ⟨c, hc, hAc, hBc⟩ :=
                  cdL2dep hBA (List.mem_append_right _ (by simp)) (cdL3 hBA f)
                    asset.depends ⟨s.cycles, n :: s.visited, n :: s.recStack⟩ s2
                    hBa (by simp) hsub1 hinv1 hBnv1 hruns
                exact ⟨c, hc, hAc, hBc⟩
            · by_cases hnB : n = B
              · subst hnB
                obtain ⟨b, hb, hAb⟩ := hBA
                rw [hfa] at hb
                have hbb : asset = b := Option.some.inj hb
                subst hbb
                have hAnv1 : A ∉ (⟨s.cycles, n :: s.visited, n :: s.recStack⟩ : CDState).visited := by
                  simp only [List.mem_cons]
                  push_neg
                  exact ⟨fun hc => hnA hc.symm, hAnv⟩
                obtain ⟨c, hc, hBc, hAc⟩ :=
                  cdL2dep hAB (List.mem_append_right _ (by simp)) (cdL3 hAB f)
                    asset.depends ⟨s.cycles, n :: s.visited, n :: s.recStack⟩ s2
                    hAb (by simp) hsub1 hinv1 hAnv1 hruns
                exact ⟨c, hc, hAc, hBc⟩
              · have hAnv1 : A ∉ (⟨s.cycles, n :: s.visited, n :: s.recStack⟩ : CDState).visited := by
                  simp only [List.mem_cons]
                  push_neg
                  exact ⟨fun hc => hnA hc.symm, hAnv⟩
                have hBnv1 : B ∉ (⟨s.cycles, n :: s.visited, n :: s.recStack⟩ : CDState).visited := by
                  simp only [List.mem_cons]
                  push_neg
                  exact ⟨fun hc => hnB hc.symm, hBnv⟩
                exact cdL2deps (ih A B hAB hBA) asset.depends _ s2 hAnv1 hBnv1
                  hsub1 hinv1 hruns hor

theorem cdOuterCycle {assets : List AssetInfo} {fuel : Nat} {A B : String}
    (hAB : Edge assets A B) (hBA : Edge assets B A) :
    ∀ lst s s', A ∉ s.visited → B ∉ s.visited → s.recStack = [] → CDInv s →
      cdOuter assets fuel lst s = some s' → (A ∈ s'.visited ∨ B ∈ s'.visited) →
      ∃ c ∈ s'.cycles, A ∈ c ∧ B ∈ c := by
  intro lst
  induction lst with
  | nil =>
    intro s s' hAnv hBnv _ _ h hor
    obtain rfl := Option.some.inj h
    rcases hor with hA | hB
    · exact absurd hA hAnv
    · exact absurd hB hBnv
  | cons a rest ih =>
    intro s s' hAnv hBnv hrs hinv h hor
    rw [cdOuter] at h
    by_cases hv : a.name ∈ s.visited
    · rw [if_pos hv] at h
      exact ih s s' hAnv hBnv hrs hinv h hor
    · rw [if_neg hv] at h
      cases hd : dfsCD assets fuel a.name [] s with
      | none => rw [hd] at h; exact absurd h (by simp)
      | some s1 =>
        rw [hd] at h
        by_cases h1 : A ∈ s1.visited ∨ B ∈ s1.visited
        · obtain ⟨c, hc, hAc, hBc⟩ :=
            cdL2 fuel A B hAB hBA a.name [] s s1 hd hAnv hBnv
              (by rw [hrs]; intro x hx; simp at hx) hinv h1
          have hle := cdOuter_le rest s1 s' h
          exact ⟨c, hle.2.2 c hc, hAc, hBc⟩
        · push_neg at h1
          have hle := dfsCD_le fuel a.name [] s s1 hd
          exact ih s1 s' h1.1 h1.2 (by rw [hle.1]; exact hrs)
            (dfsCD_inv fuel a.name [] s s1 hinv hd) h hor

/-- Any mutual dependency `A ↔ B` present in the effective graph is reported:
the detector records at least one cycle containing both names, and that
cycle begins and ends with the same name. -/
theorem mutual_cycle_reported {assets : List AssetInfo} {A B : String}
    (hAB : Edge assets A B) (hBA : Edge assets B A) :
    ∃ c ∈ findCircularDependencies assets,
      c.head? = c.getLast? ∧ A ∈ c ∧ B ∈ c := by
  obtain ⟨s, hrun, heq⟩ := findCircularDependencies_run assets
  have hAB2 := hAB
  obtain ⟨a, ha, hAdep⟩ := hAB2
  obtain ⟨hamem, haname⟩ := findAsset_name ha
  have hcov : A ∈ s.visited := by
    have := cdOuter_covers assets ⟨[], [], []⟩ s (by intro x hx; simp at hx) hrun a hamem
    rwa [haname] at this
  obtain ⟨c, hc, hAc, hBc⟩ :=
    cdOuterCycle hAB hBA assets ⟨[], [], []⟩ s (by simp) (by simp) rfl
      (by intro x hx; simp at hx) hrun (Or.inl hcov)
  have hshape := findCircularDependencies_shape assets c (by rw [heq]; exact hc)
  exact ⟨c, by rw [heq]; exact hc, hshape.2, hAc, hBc⟩

/-! ### Topological sort: one-step shape and state monotonicity -/

theorem visitTS_succ (assets : List AssetInfo) (fuel : Nat) :
    visitTS assets (fuel + 1) = visitStep assets (visitTS assets fuel) := rfl

theorem visitTS_some_succ {assets : List AssetInfo} {fuel : Nat} {n : String}
    {s s' : TSState} (h : visitTS assets fuel n s = some s') : ∃ f, fuel = f + 1 := by
  cases fuel with
  | zero => simp [visitTS] at h
  | succ f => exact ⟨f, rfl⟩

/-- State evolution of one `visit` call: `visited` grows, `sorted` is only
prepended to (so existing suffixes persist), and a name in `temp ∪ visited`
stays in `temp ∪ visited`. -/
def TSLe (s s' : TSState) : Prop :=
  (∀ x ∈ s.visited, x ∈ s'.visited) ∧ (∃ pre, s'.sorted = pre ++ s.sorted) ∧
    ∀ x, (x ∈ s.temp ∨ x ∈ s.visited) → (x ∈ s'.temp ∨ x ∈ s'.visited)

theorem TSLe_refl (s : TSState) : TSLe s s := ⟨fun _ h => h, ⟨[], rfl⟩, fun _ h => h⟩

theorem TSLe_trans {s t u : TSState} (h1 : TSLe s t) (h2 : TSLe t u) : TSLe s u := by
  obtain ⟨p1, hp1⟩ := h1.2.1
  obtain ⟨p2, hp2⟩ := h2.2.1
  exact ⟨fun x hx => h2.1 x (h1.1 x hx), ⟨p2 ++ p1, by rw [hp2, hp1, List.append_assoc]⟩,
    fun x hx => h2.2.2 x (h1.2.2 x hx)⟩

theorem tsDepsRun_le {assets : List AssetInfo} {rec : String → TSState → Option TSState}
    (hrec : ∀ d t t', rec d t = some t' → TSLe t t') :
    ∀ ds s s', tsDepsRun assets rec ds s = some s' → TSLe s s' := by
  intro ds
  induction ds with
  | nil => intro s s' h; obtain rfl := Option.some.inj h; exact TSLe_refl s
  | cons d rest ih =>
    intro s s' h
    rw [tsDepsRun] at h
    cases hfa : findAsset assets d with
    | none => rw [hfa] at h; exact ih s s' h
    | some b =>
      rw [hfa] at h
      cases hd : rec d s with
      | none => rw [hd] at h; exact absurd h (by simp)
      | some s1 =>
        rw [hd] at h
        exact TSLe_trans (hrec d s s1 hd) (ih s1 s' h)

theorem visitTS_le {assets : List AssetInfo} :
    ∀ fuel n s s', visitTS assets fuel n s = some s' → TSLe s s' := by
  intro fuel
  induction fuel with
  | zero => intro n s s' h; simp [visitTS] at h
  | succ f ih =>
    intro n s s' h
    rw [visitTS_succ, visitStep] at h
    by_cases ht : n ∈ s.temp
    · rw [if_pos ht] at h
      obtain rfl := Option.some.inj h
      exact TSLe_refl s
    · rw [if_neg ht] at h
      by_cases hv : n ∈ s.visited
      · rw [if_pos hv] at h
        obtain rfl := Option.some.inj h
        exact TSLe_refl s
      · rw [if_neg hv] at h
        have hle1 : TSLe s ⟨s.sorted, s.visited, n :: s.temp⟩ :=
          ⟨fun x hx => hx, ⟨[], rfl⟩, fun x hx => by
            rcases hx with hx | hx
            · exact Or.inl (by simp [hx])
            · exact Or.inr hx⟩
        cases hfa : findAsset assets n with
        | some asset =>
          rw [hfa] at h
          dsimp only at h
          cases hruns : tsDepsRun assets (visitTS assets f) asset.depends
              ⟨s.sorted, s.visited, n :: s.temp⟩ with
          | none => rw [hruns] at h; exact absurd h (by simp)
          | some s2 =>
            rw [hruns] at h
            obtain rfl := Option.some.inj h
            have hle2 : TSLe ⟨s.sorted, s.visited, n :: s.temp⟩ s2 :=
              tsDepsRun_le (fun d t t' hd => ih d t t' hd) _ _ _ hruns
            refine TSLe_trans (TSLe_trans hle1 hle2) ?_
            refine ⟨fun x hx => by simp [hx], ⟨[asset], rfl⟩, ?_⟩
            intro x hx
            rcases hx with hx | hx
            · by_cases hxn : x = n
              · exact Or.inr (by simp [hxn])
              · exact Or.inl ((List.mem_erase_of_ne hxn).mpr hx)
            · exact Or.inr (by simp [hx])
        | none =>
          rw [hfa] at h
          dsimp only at h
          obtain rfl := Option.some.inj h
          exact hle1

theorem tsOuter_le {assets : List AssetInfo} {fuel : Nat} :
    ∀ lst s s', tsOuter assets fuel lst s = some s' → TSLe s s' := by
  intro lst
  induction lst with
  | nil => intro s s' h; obtain rfl := Option.some.inj h; exact TSLe_refl s
  | cons a rest ih =>
    intro s s' h
    rw [tsOuter] at h
    by_cases hv : a.name ∈ s.visited
    · rw [if_pos hv] at h; exact ih s s' h
    · rw [if_neg hv] at h
      cases hd : visitTS assets fuel a.name s with
      | none => rw [hd] at h; exact absurd h (by simp)
      | some s1 =>
        rw [hd] at h
        exact TSLe_trans (visitTS_le fuel a.name s s1 hd) (ih s1 s' h)

/-- On a resolvable name, `visit` restores `temp` exactly: the name is pushed
and popped, and the dependency loop only visits resolvable names. -/
theorem visitTS_temp {assets : List AssetInfo} :
    ∀ fuel n s s', (findAsset assets n).isSome →
      visitTS assets fuel n s = some s' → s'.temp = s.temp := by
  intro fuel
  induction fuel with
  | zero => intro n s s' _ h; simp [visitTS] at h
  | succ f ih =>
    intro n s s' hreso h
    rw [visitTS_succ, visitStep] at h
    by_cases ht : n ∈ s.temp
    · rw [if_pos ht] at h
      obtain rfl := Option.some.inj h
      rfl
    · rw [if_neg ht] at h
      by_cases hv : n ∈ s.visited
      · rw [if_pos hv] at h
        obtain rfl := Option.some.inj h
        rfl
      · rw [if_neg hv] at h
        cases hfa : findAsset assets n with
        | none => rw [hfa] at hreso; simp at hreso
        | some asset =>
          rw [hfa] at h
          dsimp only at h
          cases hruns : tsDepsRun assets (visitTS assets f) asset.depends
              ⟨s.sorted, s.visited, n :: s.temp⟩ with
          | none => rw [hruns] at h; exact absurd h (by simp)
          | some s2 =>
            rw [hruns] at h
            obtain rfl := Option.some.inj h
            have hfold : ∀ ds t t', tsDepsRun assets (visitTS assets f) ds t = some t' →
                t'.temp = t.temp := by
              intro ds
              induction ds with
              | nil => intro t t' hh; obtain rfl := Option.some.inj hh; rfl
              | cons d rest ihd =>
                intro t t' hh
                rw [tsDepsRun] at hh
                cases hfd : findAsset assets d with
                | none => rw [hfd] at hh; exact ihd t t' hh
                | some b =>
                  rw [hfd] at hh
                  cases hd : visitTS assets f d t with
                  | none => rw [hd] at hh; exact absurd hh (by simp)
                  | some t1 =>
                    rw [hd] at hh
                    have h1 := ih d t t1 (by rw [hfd]; simp) hd
                    rw [ihd t1 t' hh, h1]
            have h2 := hfold asset.depends _ s2 hruns
            show s2.temp.erase n = s.temp
            rw [h2]
            exact List.erase_cons_head n s.temp

/-! ### Totality of the topological sort -/

/-- Number of asset names in neither `temp` nor `visited`. -/
def tsMeasure (assets : List AssetInfo) (s : TSState) : Nat :=
  ((assets.map (fun a => a.name)).filter
    (fun x => decide (x ∉ s.temp ∧ x ∉ s.visited))).length

theorem tsMeasure_le (assets : List AssetInfo) (s : TSState) :
    tsMeasure assets s ≤ assets.length := by
  unfold tsMeasure
  exact le_trans (List.length_filter_le _ _) (by simp)

theorem tsMeasure_mono {assets : List AssetInfo} {s s' : TSState}
    (h : ∀ x, (x ∈ s.temp ∨ x ∈ s.visited) → (x ∈ s'.temp ∨ x ∈ s'.visited)) :
    tsMeasure assets s' ≤ tsMeasure assets s := by
  apply length_filter_le_filter
  intro a _ hq
  simp only [decide_eq_true_eq] at hq ⊢
  constructor
  · intro hmem
    exact absurd (h a (Or.inl hmem)) (by push_neg; exact hq)
  · intro hmem
    exact absurd (h a (Or.inr hmem)) (by push_neg; exact hq)

theorem tsMeasure_lt {assets : List AssetInfo} {s : TSState} {n : String}
    (hn : n ∈ assets.map (fun a => a.name)) (hnt : n ∉ s.temp) (hnv : n ∉ s.visited) :
    tsMeasure assets ⟨s.sorted, s.visited, n :: s.temp⟩ < tsMeasure assets s := by
  apply length_filter_lt_filter (a := n)
  · intro a _ hq
    simp only [decide_eq_true_eq] at hq ⊢
    obtain ⟨h1, h2⟩ := hq
    exact ⟨fun hc => h1 (by simp [hc]), h2⟩
  · exact hn
  · simp [hnt, hnv]
  · simp

theorem tsDepsRun_isSome {assets : List AssetInfo} {k : Nat}
    {rec : String → TSState → Option TSState}
    (hrec_some : ∀ d t, tsMeasure assets t < k → (rec d t).isSome)
    (hrec_le : ∀ d t t', rec d t = some t' → TSLe t t') :
    ∀ ds s, tsMeasure assets s < k → (tsDepsRun assets rec ds s).isSome := by
  intro ds
  induction ds with
  | nil => intro s _; simp [tsDepsRun]
  | cons d rest ih =>
    intro s hs
    rw [tsDepsRun]
    cases hfa : findAsset assets d with
    | none => exact ih s hs
    | some b =>
      cases hd : rec d s with
      | none =>
        have := hrec_some d s hs
        rw [hd] at this
        simp at this
      | some s1 =>
        have hle := hrec_le d s s1 hd
        exact ih s1 (lt_of_le_of_lt (tsMeasure_mono hle.2.2) hs)

theorem ts_total {assets : List AssetInfo} :
    ∀ fuel n s, tsMeasure assets s < fuel → (visitTS assets fuel n s).isSome := by
  intro fuel
  induction fuel with
  | zero => intro n s hs; exact absurd hs (by simp)
  | succ f ih =>
    intro n s hs
    rw [visitTS_succ, visitStep]
    by_cases ht : n ∈ s.temp
    · rw [if_pos ht]; simp
    · rw [if_neg ht]
      by_cases hv : n ∈ s.visited
      · rw [if_pos hv]; simp
      · rw [if_neg hv]
        cases hfa : findAsset assets n with
        | some asset =>
          dsimp only
          have hname : n ∈ assets.map (fun a => a.name) := by
            obtain ⟨hmem, hn⟩ := findAsset_name hfa
            exact List.mem_map.mpr ⟨asset, hmem, hn⟩
          have hs1 : tsMeasure assets ⟨s.sorted, s.visited, n :: s.temp⟩ < f :=
            lt_of_lt_of_le (tsMeasure_lt hname ht hv) (Nat.lt_succ_iff.mp hs)
          have hrun := tsDepsRun_isSome (k := f)
            (fun d t htm => ih d t htm)
            (fun d t t' hd => visitTS_le f d t t' hd)
            asset.depends ⟨s.sorted, s.visited, n :: s.temp⟩ hs1
          cases hruns : tsDepsRun assets (visitTS assets f) asset.depends
              ⟨s.sorted, s.visited, n :: s.temp⟩ with
          | none => rw [hruns] at hrun; simp at hrun
          | some s2 => simp [hruns]
        | none => simp

theorem tsOuter_total {assets : List AssetInfo} {fuel : Nat} :
    ∀ lst s, tsMeasure assets s < fuel → (tsOuter assets fuel lst s).isSome := by
  intro lst
  induction lst with
  | nil => intro s _; simp [tsOuter]
  | cons a rest ih =>
    intro s hs
    rw [tsOuter]
    by_cases hv : a.name ∈ s.visited
    · rw [if_pos hv]; exact ih s hs
    · rw [if_neg hv]
      have := ts_total fuel a.name s hs
      cases hd : visitTS assets fuel a.name s with
      | none => rw [hd] at this; simp at this
      | some s1 =>
        have hle := visitTS_le fuel a.name s s1 hd
        exact ih s1 (lt_of_le_of_lt (tsMeasure_mono hle.2.2) hs)

/-- The wrapper's fuel budget always suffices for the topological sort. -/
theorem topologicalSort_run (assets : List AssetInfo) :
    ∃ s, tsOuter assets (assets.length + 1) assets ⟨[], [], []⟩ = some s ∧
      topologicalSort assets = s.sorted := by
  have h0 : tsMeasure assets ⟨[], [], []⟩ < assets.length + 1 :=
    Nat.lt_succ_of_le (tsMeasure_le assets _)
  have := @tsOuter_total assets (assets.length + 1) assets ⟨[], [], []⟩ h0
  cases hrun : tsOuter assets (assets.length + 1) assets ⟨[], [], []⟩ with
  | none => rw [hrun] at this; simp at this
  | some s => exact ⟨s, rfl, by rw [topologicalSort, hrun]⟩

/-! ### Ordering invariant of the topological sort (acyclic inputs)

Each asset is `unshift`ed onto the front of `sorted` only after all of its
resolvable dependencies have been processed, so on an acyclic graph every
resolvable dependency of a sorted element occurs strictly later in the
output. -/

/-- Every resolvable dependency of an element occurs strictly after it. -/
def SortedClosed (assets : List AssetInfo) (l : List AssetInfo) : Prop :=
  ∀ u a v, l = u ++ a :: v → ∀ r ∈ a.depends, (findAsset assets r).isSome →
    ∃ b ∈ v, b.name = r

/-- Global invariant of the topological-sort state: `visited` lists exactly
the names of `sorted` in order, `visited` and `temp` are duplicate-free and
disjoint, sorted elements come from `assets`, and `sorted` is closed under
resolvable dependencies towards the tail. -/
def TSInv (assets : List AssetInfo) (s : TSState) : Prop :=
  s.visited = s.sorted.map (fun a => a.name) ∧
  s.visited.Nodup ∧ s.temp.Nodup ∧
  (∀ x ∈ s.temp, x ∉ s.visited) ∧
  (∀ a ∈ s.sorted, a ∈ assets) ∧
  SortedClosed assets s.sorted

/-- Statement of the main `visit` lemma at a given fuel: on an acyclic
graph, visiting a resolvable name whose ghost call-path `q` matches `temp`
preserves the invariant and marks the name visited. -/
def TSMainStat (assets : List AssetInfo) (fuel : Nat) : Prop :=
  ∀ n (q : List String) s s', visitTS assets fuel n s = some s' →
    (findAsset assets n).isSome →
    List.Chain' (Edge assets) (q ++ [n]) → s.temp = q.reverse → TSInv assets s →
    TSInv assets s' ∧ n ∈ s'.visited ∧ (∀ x ∈ s.visited, x ∈ s'.visited)

theorem tsDepsRun_main {assets : List AssetInfo} {fuel : Nat} {q' : List String}
    (hIH : TSMainStat assets fuel) :
    ∀ ds t t', (∀ d ∈ ds, List.Chain' (Edge assets) (q' ++ [d])) →
      t.temp = q'.reverse → TSInv assets t →
      tsDepsRun assets (visitTS assets fuel) ds t = some t' →
      TSInv assets t' ∧ t'.temp = q'.reverse ∧ (∀ x ∈ t.visited, x ∈ t'.visited) ∧
        ∀ d ∈ ds, (findAsset assets d).isSome → d ∈ t'.visited := by
  intro ds
  induction ds with
  | nil =>
    intro t t' _ htemp hinv h
    obtain rfl := Option.some.inj h
    exact ⟨hinv, htemp, fun _ hx => hx, fun d hd => by simp at hd⟩
  | cons d rest ih =>
    intro t t' hch htemp hinv h
    rw [tsDepsRun] at h
    cases hfa : findAsset assets d with
    | none =>
      rw [hfa] at h
      obtain ⟨hi, ht, hm, hds⟩ := ih t t' (fun x hx => hch x (by simp [hx])) htemp hinv h
      refine ⟨hi, ht, hm, ?_⟩
      intro x hx hr
      rcases List.mem_cons.mp hx with rfl | hx2
      · rw [hfa] at hr; simp at hr
      · exact hds x hx2 hr
    | some b =>
      rw [hfa] at h
      cases hd : visitTS assets fuel d t with
      | none => rw [hd] at h; exact absurd h (by simp)
      | some t1 =>
        rw [hd] at h
        have hreso : (findAsset assets d).isSome := by rw [hfa]; simp
        obtain ⟨hi1, hdv, hm1⟩ := hIH d q' t t1 hd hreso (hch d (by simp)) htemp hinv
        have ht1 : t1.temp = q'.reverse := by
          rw [visitTS_temp fuel d t t1 hreso hd, htemp]
        obtain ⟨hi, ht, hm, hds⟩ := ih t1 t' (fun x hx => hch x (by simp [hx])) ht1 hi1 h
        refine ⟨hi, ht, fun x hx => hm x (hm1 x hx), ?_⟩
        intro x hx hr
        rcases List.mem_cons.mp hx with rfl | hx2
        · exact hm x hdv
        · exact hds x hx2 hr

theorem visitTS_main {assets : List AssetInfo} (hacyc : Acyclic assets) :
    ∀ fuel, TSMainStat assets fuel := by
  intro fuel
  induction fuel with
  | zero => intro n q s s' h; simp [visitTS] at h
  | succ f ih =>
    intro n q s s' h hreso hch htemp hinv
    rw [visitTS_succ, visitStep] at h
    by_cases ht : n ∈ s.temp
    · exfalso
      rw [htemp] at ht
      rw [List.mem_reverse] at ht
      exact hacyc n (chain'_mem_transGen hch ht)
    · rw [if_neg ht] at h
      by_cases hv : n ∈ s.visited
      · rw [if_pos hv] at h
        obtain rfl := Option.some.inj h
        exact ⟨hinv, hv, fun _ hx => hx⟩
      · rw [if_neg hv] at h
        cases hfa : findAsset assets n with
        | none => rw [hfa] at hreso; simp at hreso
        | some asset =>
          rw [hfa] at h
          dsimp only at h
          obtain ⟨hveq, hvnd, htnd, hdis, hsub, hclosed⟩ := hinv
          have hinv1 : TSInv assets ⟨s.sorted, s.visited, n :: s.temp⟩ := by
            refine ⟨hveq, hvnd, ?_, ?_, hsub, hclosed⟩
            · exact List.Nodup.cons ht htnd
            · intro x hx
              rcases List.mem_cons.mp hx with rfl | hx2
              · exact hv
              · exact hdis x hx2
          have htemp1 : (⟨s.sorted, s.visited, n :: s.temp⟩ : TSState).temp =
              (q ++ [n]).reverse := by
            show n :: s.temp = (q ++ [n]).reverse
            rw [htemp]
            simp
          have hch1 : ∀ d ∈ asset.depends,
              List.Chain' (Edge assets) ((q ++ [n]) ++ [d]) := by
            intro d hd
            rw [List.chain'_append]
            refine ⟨hch, by simp, ?_⟩
            intro x hx y hy
            rw [List.getLast?_concat] at hx
            simp at hx hy
            subst hx; subst hy
            exact ⟨asset, hfa, hd⟩
          cases hruns : tsDepsRun assets (visitTS assets f) asset.depends
              ⟨s.sorted, s.visited, n :: s.temp⟩ with
          | none => rw [hruns] at h; exact absurd h (by simp)
          | some s2 =>
            rw [hruns] at h
            obtain rfl := Option.some.inj h
            obtain ⟨hi2, ht2, hm2, hds2⟩ :=
              tsDepsRun_main ih asset.depends _ s2 hch1 htemp1 hinv1 hruns
            obtain ⟨hveq2, hvnd2, htnd2, hdis2, hsub2, hclosed2⟩ := hi2
            have hnamen : asset.name = n := (findAsset_name hfa).2
            have hnt2 : n ∈ s2.temp := by
              rw [ht2]
              simp
            have hnv2 : n ∉ s2.visited := hdis2 n hnt2
            refine ⟨⟨?_, ?_, ?_, ?_, ?_, ?_⟩, by simp, ?_⟩
            · show n :: s2.visited = (asset :: s2.sorted).map (fun a => a.name)
              rw [List.map_cons, hnamen, hveq2]
            · exact List.Nodup.cons hnv2 hvnd2
            · exact List.Nodup.erase n htnd2
            · intro x hx
              have hx2 := (List.Nodup.mem_erase_iff htnd2).mp hx
              have := hdis2 x hx2.2
              simp only [List.mem_cons]
              push_neg
              exact ⟨hx2.1, this⟩
            · intro a ha
              rcases List.mem_cons.mp ha with rfl | ha2
              · exact (findAsset_name hfa).1
              · exact hsub2 a ha2
            · intro u a v huv r hr hrreso
              cases u with
              | nil =>
                simp only [List.nil_append, List.cons.injEq] at huv
                obtain ⟨rfl, rfl⟩ := huv
                have := hds2 r hr hrreso
                rw [hveq2] at this
                obtain ⟨b, hb, hbname⟩ := List.mem_map.mp this
                exact ⟨b, hb, hbname⟩
              | cons x u2 =>
                simp only [List.cons_append, List.cons.injEq] at huv
                exact hclosed2 u2 a v huv.2 r hr hrreso
            · intro x hx
              exact List.mem_cons_of_mem _ (hm2 x hx)

theorem tsOuter_main {assets : List AssetInfo} (hacyc : Acyclic assets) {fuel : Nat} :
    ∀ lst s s', (∀ a ∈ lst, a ∈ assets) → s.temp = [] → TSInv assets s →
      tsOuter assets fuel lst s = some s' →
      TSInv assets s' ∧ s'.temp = [] ∧ (∀ x ∈ s.visited, x ∈ s'.visited) ∧
        ∀ a ∈ lst, a.name ∈ s'.visited := by
  intro lst
  induction lst with
  | nil =>
    intro s s' _ htemp hinv h
    obtain rfl := Option.some.inj h
    exact ⟨hinv, htemp, fun _ hx => hx, fun a ha => by simp at ha⟩
  | cons a rest ih =>
    intro s s' hlst htemp hinv h
    rw [tsOuter] at h
    by_cases hv : a.name ∈ s.visited
    · rw [if_pos hv] at h
      obtain ⟨hi, ht, hm, hds⟩ := ih s s' (fun x hx => hlst x (by simp [hx])) htemp hinv h
      exact ⟨hi, ht, hm, fun x hx => by
        rcases List.mem_cons.mp hx with rfl | hx2
        · exact hm x.name hv
        · exact hds x hx2⟩
    · rw [if_neg hv] at h
      cases hd : visitTS assets fuel a.name s with
      | none => rw [hd] at h; exact absurd h (by simp)
      | some s1 =>
        rw [hd] at h
        have hreso : (findAsset assets a.name).isSome :=
          findAsset_isSome_of_mem (hlst a (by simp))
        obtain ⟨hi1, hav, hm1⟩ :=
          visitTS_main hacyc fuel a.name [] s s1 hd hreso (by simp) (by simp [htemp]) hinv
        have ht1 : s1.temp = [] := by
          rw [visitTS_temp fuel a.name s s1 hreso hd, htemp]
        obtain ⟨hi, ht, hm, hds⟩ := ih s1 s' (fun x hx => hlst x (by simp [hx])) ht1 hi1 h
        refine ⟨hi, ht, fun x hx => hm x (hm1 x hx), ?_⟩
        intro x hx
        rcases List.mem_cons.mp hx with rfl | hx2
        · exact hm x.name hav
        · exact hds x hx2

/-- Summary of the run on an acyclic graph: names of the output are
duplicate-free, every asset name appears, output elements come from the
input, and every resolvable dependency of an element occurs strictly after
it. -/
theorem topologicalSort_spec {assets : List AssetInfo} (hacyc : Acyclic assets) :
    (∀ a ∈ assets, a.name ∈ (topologicalSort assets).map (fun x => x.name)) ∧
    ((topologicalSort assets).map (fun x => x.name)).Nodup ∧
    (∀ a ∈ topologicalSort assets, a ∈ assets) ∧
    SortedClosed assets (topologicalSort assets) := by
  obtain ⟨s, hrun, heq⟩ := topologicalSort_run assets
  have hinit : TSInv assets ⟨[], [], []⟩ := by
    refine ⟨rfl, List.nodup_nil, List.nodup_nil, ?_, ?_, ?_⟩
    · intro x hx; simp at hx
    · intro a ha; simp at ha
    · intro u a v huv; simp at huv
  obtain ⟨hi, _, _, hds⟩ :=
    tsOuter_main hacyc assets ⟨[], [], []⟩ s (fun _ hx => hx) rfl hinit hrun
  obtain ⟨hveq, hvnd, _, _, hsub, hclosed⟩ := hi
  rw [heq]
  refine ⟨?_, ?_, hsub, hclosed⟩
  · intro a ha
    have := hds a ha
    rwa [hveq] at this
  · rwa [hveq] at hvnd

/-! ### `$depends` parsing (parseAssetFile, lines 1150-1158)

The JS code extracts the bracketed `$depends` initialiser with
`/\$depends\s*=\s*\[(.*?)\]/s`, scans it with the global regex
`/'([^']+)'|(\w+::\w+)/g`, and strips single quotes from each match with
`dep.replace(/'/g, '')`.  The two regexes are embedded as explicit scanners
with JS semantics: leftmost match, first alternative preferred, failure
advances the start position by one, a lazy `(.*?)]` captures up to the first
closing bracket, and `[^']+`/`\w+` behave as the character classes dictate. -/

/-- JS `\w`: ASCII letters, digits and underscore. -/
def isWordChar (c : Char) : Bool := c.isAlphanum || c = '_'

/-- Split off everything before the first single quote; `none` when no quote
follows.  Models the backtracking of `([^']+)'`: the class cannot cross a
quote, so the match extends exactly to the next quote. -/
def takeUntilQuote : List Char → Option (List Char × List Char)
  | [] => none
  | c :: rest =>
    if c = quoteChar then some ([], rest)
    else
      match takeUntilQuote rest with
      | some (content, rem) => some (c :: content, rem)
      | none => none

/-- Alternative 1, `'([^']+)'`, tried at the current position: an opening
quote, at least one non-quote character, a closing quote.  Returns the whole
match (quotes included, as JS `match` does) and the remainder. -/
def matchAlt1 : List Char → Option (List Char × List Char)
  | [] => none
  | c :: rest =>
    if c = quoteChar then
      match takeUntilQuote rest with
      | some (content, rem) =>
        if content.isEmpty then none
        else some (quoteChar :: content ++ [quoteChar], rem)
      | none => none
    else none

/-- Alternative 2, `(\w+::\w+)`, tried at the current position: a maximal
nonempty word run, two colons, a maximal nonempty word run.  (The greedy
`\w+` cannot give characters back for the `::`, since `:` is not a word
character, so the runs are exactly the maximal ones.) -/
def matchAlt2 (s : List Char) : Option (List Char × List Char) :=
  let w1 := s.takeWhile isWordChar
  let r1 := s.dropWhile isWordChar
  let w2 := (r1.drop 2).takeWhile isWordChar
  if w1.isEmpty ∨ r1.take 2 ≠ [':', ':'] ∨ w2.isEmpty then none
  else some (w1 ++ ':' :: ':' :: w2, (r1.drop 2).dropWhile isWordChar)

/-- The global scan of `/'([^']+)'|(\w+::\w+)/g`: at each position try
alternative 1 then alternative 2; on success continue after the match, on
failure advance one character.  `fuel ≥ s.length` always suffices since
every step consumes at least one character. -/
def scanTokens : Nat → List Char → List (List Char)
  | 0, _ => []
  | _ + 1, [] => []
  | fuel + 1, c :: rest =>
    match matchAlt1 (c :: rest) with
    | some (tok, rem) => tok :: scanTokens fuel rem
    | none =>
      match matchAlt2 (c :: rest) with
      | some (tok, rem) => tok :: scanTokens fuel rem
      | none => scanTokens fuel rest

/-- Match a literal character sequence, returning the remainder. -/
def litMatch : List Char → List Char → Option (List Char)
  | [], s => some s
  | _ :: _, [] => none
  | p :: ps, c :: rest => if c = p then litMatch ps rest else none

/-- The lazy `(.*?)\]` under `/s`: capture everything up to the first `]`
(newlines included); fail when no `]` follows. -/
def upToBracket : List Char → Option (List Char)
  | [] => none
  | c :: rest =>
    if c = ']' then some []
    else
      match upToBracket rest with
      | some content => some (c :: content)
      | none => none

/-- `/\$depends\s*=\s*\[(.*?)\]/s` tried at the current position. -/
def matchDependsAt (s : List Char) : Option (List Char) :=
  match litMatch "$depends".toList s with
  | none => none
  | some s1 =>
    match s1.dropWhile Char.isWhitespace with
    | c :: s2 =>
      if c = '=' then
        match s2.dropWhile Char.isWhitespace with
        | b :: s3 => if b = '[' then upToBracket s3 else none
        | [] => none
      else none
    | [] => none

/-- Leftmost match of the `$depends` extraction regex over the file. -/
def findDependsContent : Nat → List Char → Option (List Char)
  | 0, _ => none
  | _ + 1, [] => none
  | fuel + 1, c :: rest =>
    match matchDependsAt (c :: rest) with
    | some content => some content
    | none => findDependsContent fuel rest

/-- The `depends` field produced by `parseAssetFile` for a given source
text: extract the `$depends` initialiser, scan it for the two dependency
shapes, and strip single quotes from each match.  When the initialiser is
absent (or holds no recognisable dependency) the field stays `[]`. -/
def parseDepends (content : String) : List String :=
  match findDependsContent content.toList.length content.toList with
  | some inner =>
    (scanTokens inner.length inner).map
      (fun m => String.mk (m.filter (fun c => !(c == quoteChar))))
  | none => []

/-! ### Soundness of the dependency scanner -/

/-- The two recognised shapes of a raw match: a quoted nonempty literal, or
a `\w+::\w+` reference. -/
def TokenShape (tok : List Char) : Prop :=
  (∃ x, tok = quoteChar :: x ++ [quoteChar] ∧ x ≠ [] ∧ quoteChar ∉ x) ∨
  (∃ w1 w2, tok = w1 ++ ':' :: ':' :: w2 ∧ w1 ≠ [] ∧ w2 ≠ [] ∧
    (∀ c ∈ w1, isWordChar c = true) ∧ ∀ c ∈ w2, isWordChar c = true)

theorem takeUntilQuote_spec :
    ∀ {l content rem : List Char}, takeUntilQuote l = some (content, rem) →
      l = content ++ quoteChar :: rem ∧ quoteChar ∉ content := by
  intro l
  induction l with
  | nil => intro content rem h; simp [takeUntilQuote] at h
  | cons c rest ih =>
    intro content rem h
    rw [takeUntilQuote] at h
    by_cases hc : c = quoteChar
    · rw [if_pos hc] at h
      obtain ⟨rfl, rfl⟩ := Prod.mk.injEq .. ▸ Option.some.inj h
      subst hc
      exact ⟨rfl, by simp⟩
    · rw [if_neg hc] at h
      cases htq : takeUntilQuote rest with
      | none => rw [htq] at h; simp at h
      | some pr =>
        obtain ⟨content2, rem2⟩ := pr
        rw [htq] at h
        obtain ⟨h1, h2⟩ := Prod.mk.injEq .. ▸ Option.some.inj h
        obtain ⟨hl, hnq⟩ := ih htq
        subst h2
        refine ⟨?_, ?_⟩
        · rw [← h1, hl]; simp
        · rw [← h1]
          intro hmem
          rcases List.mem_cons.mp hmem with hq | hq
          · exact hc hq.symm
          · exact hnq hq

theorem matchAlt1_spec {s tok rem : List Char}
    (h : matchAlt1 s = some (tok, rem)) :
    ∃ x, tok = quoteChar :: x ++ [quoteChar] ∧ x ≠ [] ∧ quoteChar ∉ x ∧
      s = tok ++ rem := by
  cases s with
  | nil => simp [matchAlt1] at h
  | cons c rest =>
    rw [matchAlt1] at h
    by_cases hc : c = quoteChar
    · rw [if_pos hc] at h
      cases htq : takeUntilQuote rest with
      | none => rw [htq] at h; simp at h
      | some pr =>
        obtain ⟨content, rem2⟩ := pr
        rw [htq] at h
        dsimp only at h
        by_cases hemp : content.isEmpty
        · rw [if_pos hemp] at h; simp at h
        · rw [if_neg hemp] at h
          obtain ⟨h1, h2⟩ := Prod.mk.injEq .. ▸ Option.some.inj h
          obtain ⟨hl, hnq⟩ := takeUntilQuote_spec htq
          subst h2
          refine ⟨content, h1.symm, ?_, hnq, ?_⟩
          · intro hcon; rw [hcon] at hemp; simp at hemp
          · rw [← h1, hc, hl]
            simp
    · rw [if_neg hc] at h; simp at h

theorem matchAlt2_spec {s tok rem : List Char}
    (h : matchAlt2 s = some (tok, rem)) :
    ∃ w1 w2, tok = w1 ++ ':' :: ':' :: w2 ∧ w1 ≠ [] ∧ w2 ≠ [] ∧
      (∀ c ∈ w1, isWordChar c = true) ∧ (∀ c ∈ w2, isWordChar c = true) ∧
      s = tok ++ rem := by
  rw [matchAlt2] at h
  by_cases hcond : (s.takeWhile isWordChar).isEmpty ∨
      (s.dropWhile isWordChar).take 2 ≠ [':', ':'] ∨
      (((s.dropWhile isWordChar).drop 2).takeWhile isWordChar).isEmpty
  · rw [if_pos hcond] at h; simp at h
  · rw [if_neg hcond] at h
    push_neg at hcond
    obtain ⟨hw1, htake, hw2⟩ := hcond
    obtain ⟨h1, h2⟩ := Prod.mk.injEq .. ▸ Option.some.inj h
    set r1 := s.dropWhile isWordChar with hr1
    refine ⟨s.takeWhile isWordChar, (r1.drop 2).takeWhile isWordChar, h1.symm, ?_, ?_, ?_, ?_, ?_⟩
    · intro hcon; rw [hcon] at hw1; simp at hw1
    · intro hcon; rw [hcon] at hw2; simp at hw2
    · intro x hx; exact List.mem_takeWhile_imp hx
    · intro x hx; exact List.mem_takeWhile_imp hx
    · rw [← h1, ← h2]
      calc s = s.takeWhile isWordChar ++ r1 := (List.takeWhile_append_dropWhile isWordChar s).symm
        _ = s.takeWhile isWordChar ++ (r1.take 2 ++ r1.drop 2) := by
            rw [List.take_append_drop]
        _ = s.takeWhile isWordChar ++ (':' :: ':' :: r1.drop 2) := by rw [htake]; rfl
        _ = s.takeWhile isWordChar ++ (':' :: ':' ::
              ((r1.drop 2).takeWhile isWordChar ++ (r1.drop 2).dropWhile isWordChar)) := by
            rw [List.takeWhile_append_dropWhile]
        _ = (s.takeWhile isWordChar ++ ':' :: ':' :: (r1.drop 2).takeWhile isWordChar) ++
              (r1.drop 2).dropWhile isWordChar := by simp

theorem scanTokens_sound :
    ∀ fuel (s : List Char) (tok : List Char), tok ∈ scanTokens fuel s →
      TokenShape tok ∧ ∃ pre post, s = pre ++ tok ++ post := by
  intro fuel
  induction fuel with
  | zero => intro s tok h; simp [scanTokens] at h
  | succ f ih =>
    intro s tok h
    cases s with
    | nil => simp [scanTokens] at h
    | cons c rest =>
      rw [scanTokens] at h
      cases h1 : matchAlt1 (c :: rest) with
      | some pr =>
        obtain ⟨tok1, rem⟩ := pr
        rw [h1] at h
        obtain ⟨x, hx, hxne, hxq, hsplit⟩ := matchAlt1_spec h1
        rcases List.mem_cons.mp h with rfl | h2
        · exact ⟨Or.inl ⟨x, hx, hxne, hxq⟩, [], rem, by rw [hsplit]; simp⟩
        · obtain ⟨hshape, pre, post, hpp⟩ := ih rem tok h2
          exact ⟨hshape, tok1 ++ pre, post, by rw [hsplit, hpp]; simp⟩
      | none =>
        rw [h1] at h
        cases h2 : matchAlt2 (c :: rest) with
        | some pr =>
          obtain ⟨tok2, rem⟩ := pr
          rw [h2] at h
          obtain ⟨w1, w2, hw, hw1, hw2, hwc1, hwc2, hsplit⟩ := matchAlt2_spec h2
          rcases List.mem_cons.mp h with rfl | h3
          · exact ⟨Or.inr ⟨w1, w2, hw, hw1, hw2, hwc1, hwc2⟩, [], rem, by rw [hsplit]; simp⟩
          · obtain ⟨hshape, pre, post, hpp⟩ := ih rem tok h3
            exact ⟨hshape, tok2 ++ pre, post, by rw [hsplit, hpp]; simp⟩
        | none =>
          rw [h2] at h
          obtain ⟨hshape, pre, post, hpp⟩ := ih rest tok h
          exact ⟨hshape, c :: pre, post, by rw [hpp]; simp⟩

theorem quote_not_word : isWordChar quoteChar = false := by decide

theorem strip_quoted {x : List Char} (hx : quoteChar ∉ x) :
    (quoteChar :: x ++ [quoteChar]).filter (fun c => !(c == quoteChar)) = x := by
  have h1 : x.filter (fun c => !(c == quoteChar)) = x := by
    apply List.filter_eq_self.mpr
    intro a ha
    simp only [Bool.not_eq_true', beq_eq_false_iff_ne]
    exact fun hc => hx (hc ▸ ha)
  rw [List.cons_append, List.filter_cons, List.filter_append, h1]
  simp

theorem strip_ref {w1 w2 : List Char} (hwc1 : ∀ c ∈ w1, isWordChar c = true)
    (hwc2 : ∀ c ∈ w2, isWordChar c = true) :
    (w1 ++ ':' :: ':' :: w2).filter (fun c => !(c == quoteChar)) =
      w1 ++ ':' :: ':' :: w2 := by
  apply List.filter_eq_self.mpr
  intro a ha
  simp only [Bool.not_eq_true', beq_eq_false_iff_ne]
  intro hc
  subst hc
  rcases List.mem_append.mp ha with h | h
  · have hcontra := hwc1 _ h
    rw [quote_not_word] at hcontra
    simp at hcontra
  · rcases List.mem_cons.mp h with hq | h
    · exact absurd hq (by decide)
    · rcases List.mem_cons.mp h with hq | h
      · exact absurd hq (by decide)
      · have hcontra := hwc2 _ h
        rw [quote_not_word] at hcontra
        simp at hcontra

/-! ### Concrete descriptor sets used for counterexamples and witnesses -/

/-- A leaf asset `A` with no dependencies. -/
def assetA : AssetInfo := ⟨"A", "", none, none, none, [], [], [], none⟩

/-- Asset `B` depending on `A`. -/
def assetB : AssetInfo := ⟨"B", "", none, none, none, [], [], ["A"], none⟩

/-- `X` and `Y` form a mutual cycle. -/
def assetX : AssetInfo := ⟨"X", "", none, none, none, [], [], ["Y"], none⟩

/-- See `assetX`. -/
def assetY : AssetInfo := ⟨"Y", "", none, none, none, [], [], ["X"], none⟩

/-- First of two descriptors sharing the name `A`; depends on `B`. -/
def assetA1 : AssetInfo := ⟨"A", "a1.php", none, none, none, [], [], ["B"], none⟩

/-- Second descriptor named `A`; no dependencies. -/
def assetA2 : AssetInfo := ⟨"A", "a2.php", none, none, none, [], [], [], none⟩

/-- A self-referential asset. -/
def assetS : AssetInfo := ⟨"S", "", none, none, none, [], [], ["S"], none⟩

/-- An asset whose dependency name resolves to no node. -/
def assetG : AssetInfo := ⟨"G", "", none, none, none, [], [], ["Ghost"], none⟩

theorem acyclicAB : Acyclic [assetA, assetB] := by
  apply acyclic_of_rank _ (fun s => if s = "B" then 1 else 0)
  intro m n he
  obtain ⟨a, ha, hm, hn⟩ := edge_mem he
  rcases List.mem_cons.mp ha with rfl | ha2
  · simp [assetA] at hn
  · rcases List.mem_cons.mp ha2 with rfl | ha3
    · have hn2 : n = "A" := by simpa [assetB] using hn
      have hm2 : m = "B" := by simpa [assetB] using hm.symm
      subst hn2; subst hm2
      decide
    · simp at ha3

/-! ### Claims -/

/-- C1, counterexample.  The claim states that on an acyclic set the output
places each resolvable dependency `R` at a strictly smaller index than its
dependent `D`.  On the acyclic set `[A, B]` with `B` depending on `A`, the
output is `[B, A]`: the dependency `A` sits at index 1, the dependent `B` at
index 0, refuting the claimed orientation.  A duplicate-name acyclic set
`[A1, A2]` also refutes the every-descriptor-exactly-once part: `A2` never
appears. -/
theorem claim_C1_counterexample :
    (Acyclic [assetA, assetB] ∧
      topologicalSort [assetA, assetB] = [assetB, assetA] ∧
      ¬ ((topologicalSort [assetA, assetB]).indexOf assetA <
          (topologicalSort [assetA, assetB]).indexOf assetB) ∧
      "A" ∈ assetB.depends ∧ findAsset [assetA, assetB] "A" = some assetA) ∧
    (topologicalSort [assetA1, assetA2] = [assetA1] ∧
      assetA2 ∉ topologicalSort [assetA1, assetA2]) := by
  constructor
  · exact ⟨acyclicAB, by decide, by decide, by decide, by decide⟩
  · constructor <;> decide

/-- C1, amended.  For every acyclic descriptor set with pairwise-distinct
names, the Topological Orderer's output contains every descriptor exactly
once; and for every descriptor `D` and every dependency name `r` in `D`'s
`depends` that resolves to a node, the node named `r` appears strictly
AFTER `D` in the output (the code `unshift`s each node in front of its
already-emitted dependencies, so the orientation of the original claim is
reversed). -/
theorem claim_C1 (assets : List AssetInfo) (hacyc : Acyclic assets)
    (hnodup : (assets.map (fun a => a.name)).Nodup) :
    (∀ a ∈ assets, (topologicalSort assets).count a = 1) ∧
    (∀ u D v, topologicalSort assets = u ++ D :: v →
      ∀ r ∈ D.depends, (findAsset assets r).isSome → ∃ R ∈ v, R.name = r) := by
  obtain ⟨hcov, hnd, hsub, hclosed⟩ := topologicalSort_spec hacyc
  refine ⟨?_, hclosed⟩
  intro a ha
  have hmem : a ∈ topologicalSort assets := by
    obtain ⟨b, hb, hbn⟩ := List.mem_map.mp (hcov a ha)
    have hba : b = a := List.inj_on_of_nodup_map hnodup (hsub b hb) ha hbn
    exact hba ▸ hb
  exact List.count_eq_one_of_mem (List.Nodup.of_map _ hnd) hmem

/-- Witness for C1 at the concrete acyclic set `[A, B]`. -/
theorem claim_C1_witness :
    (Acyclic [assetA, assetB] ∧
      ([assetA, assetB].map (fun a => a.name)).Nodup) ∧
    ((∀ a ∈ [assetA, assetB], (topologicalSort [assetA, assetB]).count a = 1) ∧
     (∀ u D v, topologicalSort [assetA, assetB] = u ++ D :: v →
       ∀ r ∈ D.depends, (findAsset [assetA, assetB] r).isSome →
         ∃ R ∈ v, R.name = r)) :=
  ⟨⟨acyclicAB, by decide⟩, claim_C1 [assetA, assetB] acyclicAB (by decide)⟩

/-- C2, counterexample.  On `{X: deps=[Y]}, {Y: deps=[X]}` the claim predicts
a sequence omitting at least one of `X`, `Y`; in fact the orderer returns
`[X, Y]`, containing both. -/
theorem claim_C2_counterexample :
    topologicalSort [assetX, assetY] = [assetX, assetY] ∧
    ¬ (assetX ∉ topologicalSort [assetX, assetY] ∨
       assetY ∉ topologicalSort [assetX, assetY]) := by
  constructor <;> decide

/-- C2, amended.  On the mutual two-cycle the Topological Orderer terminates
without failing (fuel `length + 1 = 3` suffices) and returns `[X, Y]`: both
descriptors are present, because each node is unshifted when its own visit
completes; the `temp` short-circuit only cuts the revisiting edge. -/
theorem claim_C2 :
    (tsOuter [assetX, assetY] 3 [assetX, assetY] ⟨[], [], []⟩).isSome ∧
    topologicalSort [assetX, assetY] = [assetX, assetY] ∧
    assetX ∈ topologicalSort [assetX, assetY] ∧
    assetY ∈ topologicalSort [assetX, assetY] := by
  refine ⟨by decide, by decide, by decide, by decide⟩

/-- C3, counterexample.  With two descriptors named `A` (the earlier one
depending on `B`, the later one dependency-free) plus `B` depending on `A`,
the lookup used by all analyzers (`assets.find`) returns the EARLIER
descriptor, and the cycle detector consequently reports the cycle through
the earlier `A`'s dependency — under the claimed later-wins semantics `A`
would have no outgoing edge and no cycle could pass through it. -/
theorem claim_C3_counterexample :
    assetA1.name = "A" ∧ assetA2.name = "A" ∧ assetA1 ≠ assetA2 ∧
    findAsset [assetA1, assetA2, assetB] "A" = some assetA1 ∧
    findCircularDependencies [assetA1, assetA2, assetB] = [["A", "B", "A"]] ∧
    topologicalSort [assetA1, assetA2, assetB] = [assetA1, assetB] ∧
    assetA2 ∉ topologicalSort [assetA1, assetA2, assetB] := by
  refine ⟨by decide, by decide, by decide, by decide, by decide, by decide, by decide⟩

/-- C3, amended.  The name lookup shared by cycle detection, topological
ordering and the single-asset analysis (`assets.find(a => a.name === n)`)
resolves a duplicated name to the descriptor that occurs EARLIEST in the
input sequence (first-write-wins, not last-write-wins): whenever it answers
`a`, the input splits as `u ++ a :: v` with no descriptor in `u` named `n`,
and the single-asset analysis reports exactly that earliest descriptor. -/
theorem claim_C3 (assets : List AssetInfo) (n : String) (a : AssetInfo)
    (h : findAsset assets n = some a) :
    (a.name = n ∧ ∃ u v, assets = u ++ a :: v ∧ ∀ x ∈ u, x.name ≠ n) ∧
    analyzeAsset assets n =
      Except.ok (a, a.depends, assets.filter (fun x => x.depends.contains a.name)) := by
  refine ⟨findAsset_first h, ?_⟩
  rw [analyzeAsset, h]

/-- Witness for C3 at the duplicated-name set. -/
theorem claim_C3_witness :
    findAsset [assetA1, assetA2, assetB] "A" = some assetA1 ∧
    ((assetA1.name = "A" ∧ ∃ u v, [assetA1, assetA2, assetB] = u ++ assetA1 :: v ∧
        ∀ x ∈ u, x.name ≠ "A") ∧
      analyzeAsset [assetA1, assetA2, assetB] "A" =
        Except.ok (assetA1, assetA1.depends,
          [assetA1, assetA2, assetB].filter (fun x => x.depends.contains assetA1.name))) :=
  ⟨by decide, claim_C3 [assetA1, assetA2, assetB] "A" assetA1 (by decide)⟩

/-- C4.  For every descriptor set whose effective graph has edges `A → B`
and `B → A` (both endpoints therefore resolving to nodes of the set), the
Cycle Detector reports at least one cycle sequence that begins and ends with
the same name and contains both `A` and `B`. -/
theorem claim_C4 (assets : List AssetInfo) (A B : String)
    (hAB : Edge assets A B) (hBA : Edge assets B A) :
    ∃ c ∈ findCircularDependencies assets, c.head? = c.getLast? ∧ A ∈ c ∧ B ∈ c :=
  mutual_cycle_reported hAB hBA

/-- Witness for C4 at the mutual pair `X ↔ Y`. -/
theorem claim_C4_witness :
    Edge [assetX, assetY] "X" "Y" ∧ Edge [assetX, assetY] "Y" "X" ∧
    ∃ c ∈ findCircularDependencies [assetX, assetY],
      c.head? = c.getLast? ∧ "X" ∈ c ∧ "Y" ∈ c :=
  ⟨⟨assetX, by decide, by decide⟩, ⟨assetY, by decide, by decide⟩,
    claim_C4 [assetX, assetY] "X" "Y" ⟨assetX, by decide, by decide⟩
      ⟨assetY, by decide, by decide⟩⟩

/-- C5.  Every reported cycle is an ordered name sequence of length at least
2 whose first and last elements agree; the detector returns the empty set on
an acyclic graph; and the full traversal always returns a value (cycles are
data, not an exception). -/
theorem claim_C5 (assets : List AssetInfo) :
    (∀ c ∈ findCircularDependencies assets, 2 ≤ c.length ∧ c.head? = c.getLast?) ∧
    (Acyclic assets → findCircularDependencies assets = []) ∧
    (cdOuter assets (assets.length + 1) assets ⟨[], [], []⟩).isSome := by
  refine ⟨findCircularDependencies_shape assets, findCircularDependencies_acyclic, ?_⟩
  obtain ⟨s, hrun, _⟩ := findCircularDependencies_run assets
  rw [hrun]
  simp

/-- Witness for C5: the reported cycle on `X ↔ Y` has the required shape,
and the acyclic set `[A, B]` yields the empty cycle set. -/
theorem claim_C5_witness :
    (["X", "Y", "X"] ∈ findCircularDependencies [assetX, assetY] ∧
      2 ≤ (["X", "Y", "X"] : List String).length ∧
      (["X", "Y", "X"] : List String).head? = (["X", "Y", "X"] : List String).getLast?) ∧
    (Acyclic [assetA, assetB] ∧ findCircularDependencies [assetA, assetB] = []) :=
  ⟨⟨by decide, (claim_C5 [assetX, assetY]).1 ["X", "Y", "X"] (by decide)⟩,
    ⟨acyclicAB, (claim_C5 [assetA, assetB]).2.1 acyclicAB⟩⟩

/-- C6.  The Cycle Detector is total over every finite descriptor set: with
any fuel above the number of descriptors (each node name is visited to
completion at most once) the full depth-first traversal returns a final
state — including on self-referential and mutually-referential sets. -/
theorem claim_C6 (assets : List AssetInfo) (fuel : Nat)
    (h : assets.length < fuel) :
    (cdOuter assets fuel assets ⟨[], [], []⟩).isSome :=
  cdOuter_total assets ⟨[], [], []⟩ (lt_of_le_of_lt (cdMeasure_le assets _) h)

/-- Witness for C6 on a set containing a self-loop and a mutual cycle. -/
theorem claim_C6_witness :
    [assetS, assetX, assetY].length < 4 ∧
    (cdOuter [assetS, assetX, assetY] 4 [assetS, assetX, assetY] ⟨[], [], []⟩).isSome :=
  ⟨by decide, claim_C6 [assetS, assetX, assetY] 4 (by decide)⟩

/-- C7.  The single-asset query fails with the NotFound rejection — echoing
the requested name in `Asset '<name>' not found` — exactly when no
descriptor carries the requested name; on a present name it succeeds and
returns the resolved descriptor, its declared dependencies verbatim, and its
reverse dependents. -/
theorem claim_C7 (assets : List AssetInfo) (n : String) :
    (analyzeAsset assets n =
        Except.error ("Asset " ++ quoteStr ++ n ++ quoteStr ++ " not found") ↔
      ∀ a ∈ assets, a.name ≠ n) ∧
    (∀ a, findAsset assets n = some a →
      analyzeAsset assets n =
        Except.ok (a, a.depends, assets.filter (fun x => x.depends.contains a.name))) := by
  constructor
  · constructor
    · intro herr
      rw [← findAsset_none_iff]
      cases hfa : findAsset assets n with
      | none => rfl
      | some a =>
        rw [analyzeAsset, hfa] at herr
        exact absurd herr (by simp)
    · intro habs
      rw [analyzeAsset, findAsset_none_iff.mpr habs]
  · intro a h
    rw [analyzeAsset, h]

/-- Witness for C7: success on `B` (dependencies `["A"]`, no dependents),
NotFound on the absent name `Ghost`. -/
theorem claim_C7_witness :
    (findAsset [assetA, assetB] "B" = some assetB ∧
      analyzeAsset [assetA, assetB] "B" = Except.ok (assetB, ["A"], [])) ∧
    ((∀ a ∈ [assetA, assetB], a.name ≠ "Ghost") ∧
      analyzeAsset [assetA, assetB] "Ghost" =
        Except.error ("Asset " ++ quoteStr ++ "Ghost" ++ quoteStr ++ " not found")) :=
  ⟨⟨by decide, (claim_C7 [assetA, assetB] "B").2 assetB (by decide)⟩,
    ⟨by decide, (claim_C7 [assetA, assetB] "Ghost").1.mpr (by decide)⟩⟩

/-- C8.  Every dependency identifier extracted from a source file comes from
the captured `$depends` initialiser and has exactly one of the two
recognised shapes: a nonempty quoted string literal — recorded with its
quotes stripped — or a `Scope::Constant`-style reference (nonempty word run,
`::`, nonempty word run), recorded verbatim. -/
theorem claim_C8 (content : String) (d : String) (hd : d ∈ parseDepends content) :
    ∃ inner, findDependsContent content.toList.length content.toList = some inner ∧
      ((∃ x : List Char, d = String.mk x ∧ x ≠ [] ∧ quoteChar ∉ x ∧
          ∃ pre post, inner = pre ++ (quoteChar :: x ++ [quoteChar]) ++ post) ∨
        (∃ w1 w2 : List Char, d = String.mk (w1 ++ ':' :: ':' :: w2) ∧
          w1 ≠ [] ∧ w2 ≠ [] ∧
          (∀ c ∈ w1, isWordChar c = true) ∧ (∀ c ∈ w2, isWordChar c = true) ∧
          ∃ pre post, inner = pre ++ (w1 ++ ':' :: ':' :: w2) ++ post)) := by
  rw [parseDepends] at hd
  cases hfind : findDependsContent content.toList.length content.toList with
  | none => rw [hfind] at hd; simp at hd
  | some inner =>
    rw [hfind] at hd
    obtain ⟨m, hm, hdm⟩ := List.mem_map.mp hd
    obtain ⟨hshape, pre, post, hpp⟩ := scanTokens_sound inner.length inner m hm
    refine ⟨inner, rfl, ?_⟩
    rcases hshape with ⟨x, hx, hxne, hxq⟩ | ⟨w1, w2, hw, hw1, hw2, hwc1, hwc2⟩
    · left
      refine ⟨x, ?_, hxne, hxq, pre, post, by rw [hpp, hx]⟩
      rw [← hdm, hx, strip_quoted hxq]
    · right
      refine ⟨w1, w2, ?_, hw1, hw2, hwc1, hwc2, pre, post, by rw [hpp, hw]⟩
      rw [← hdm, hw, strip_ref hwc1 hwc2]

/-- Witness for C8 on a `$depends` initialiser holding one quoted literal
and one `::`-style reference. -/
theorem claim_C8_witness :
    "jquery" ∈ parseDepends "$depends = ['jquery', Alpha::class]" ∧
    ∃ inner, findDependsContent
        "$depends = ['jquery', Alpha::class]".toList.length
        "$depends = ['jquery', Alpha::class]".toList = some inner ∧
      ((∃ x : List Char, "jquery" = String.mk x ∧ x ≠ [] ∧ quoteChar ∉ x ∧
          ∃ pre post, inner = pre ++ (quoteChar :: x ++ [quoteChar]) ++ post) ∨
        (∃ w1 w2 : List Char, "jquery" = String.mk (w1 ++ ':' :: ':' :: w2) ∧
          w1 ≠ [] ∧ w2 ≠ [] ∧
          (∀ c ∈ w1, isWordChar c = true) ∧ (∀ c ∈ w2, isWordChar c = true) ∧
          ∃ pre post, inner = pre ++ (w1 ++ ':' :: ':' :: w2) ++ post)) :=
  ⟨by decide, claim_C8 "$depends = ['jquery', Alpha::class]" "jquery" (by decide)⟩

/-- C9.  Traversal into a dependency name with no corresponding node returns
immediately — it only marks the name visited, leaves the recursion stack and
the recorded cycles untouched — and no reported cycle ever begins at a name
absent from the descriptor set. -/
theorem claim_C9 (assets : List AssetInfo) :
    (∀ fuel n path s, findAsset assets n = none → n ∉ s.recStack → n ∉ s.visited →
      dfsCD assets (fuel + 1) n path s = some ⟨s.cycles, n :: s.visited, s.recStack⟩) ∧
    (∀ c ∈ findCircularDependencies assets, ∀ n, c.head? = some n →
      (findAsset assets n).isSome) := by
  refine ⟨?_, findCircularDependencies_heads assets⟩
  intro fuel n path s hfa hrs hv
  rw [dfsCD_succ, dfsCDStep, if_neg hrs, if_neg hv, hfa]
  dsimp only
  rw [List.erase_cons_head]

/-- Witness for C9: the unresolvable dependency name `Ghost` of `G`. -/
theorem claim_C9_witness :
    (findAsset [assetG] "Ghost" = none ∧
      dfsCD [assetG] 1 "Ghost" ["G"] ⟨[], ["G"], ["G"]⟩ =
        some ⟨[], "Ghost" :: ["G"], ["G"]⟩) ∧
    (findCircularDependencies [assetG] = []) :=
  ⟨⟨by decide, (claim_C9 [assetG]).1 0 "Ghost" ["G"] ⟨[], ["G"], ["G"]⟩
      (by decide) (by decide) (by decide)⟩, by decide⟩

/-- C10.  For every acyclic descriptor set with pairwise-distinct names, the
orderer emits dependents before dependencies: whenever the output has `D` at
index `i` and `r` is a dependency of `D` resolving to a node, some node
named `r` sits at an index `j > i`. -/
theorem claim_C10 (assets : List AssetInfo) (hacyc : Acyclic assets)
    (hnodup : (assets.map (fun a => a.name)).Nodup) :
    ∀ (i : Nat) (D : AssetInfo), (topologicalSort assets)[i]? = some D →
      ∀ r ∈ D.depends, (findAsset assets r).isSome →
      ∃ (j : Nat) (R : AssetInfo), i < j ∧ (topologicalSort assets)[j]? = some R ∧
        R.name = r := by
  obtain ⟨_, _, _, hclosed⟩ := topologicalSort_spec hacyc
  intro i D hD r hr hreso
  obtain ⟨hilen, hDi⟩ := List.getElem?_eq_some_iff.mp hD
  have hsplit : topologicalSort assets =
      (topologicalSort assets).take i ++ D :: (topologicalSort assets).drop (i + 1) := by
    calc topologicalSort assets
        = (topologicalSort assets).take i ++ (topologicalSort assets).drop i :=
          (List.take_append_drop i _).symm
      _ = (topologicalSort assets).take i ++ D :: (topologicalSort assets).drop (i + 1) := by
          rw [List.drop_eq_getElem_cons hilen, hDi]
  obtain ⟨R, hR, hRn⟩ := hclosed _ D _ hsplit r hr hreso
  obtain ⟨k, hk⟩ := List.mem_iff_getElem?.mp hR
  refine ⟨i + 1 + k, R, by omega, ?_, hRn⟩
  rw [← List.getElem?_drop]
  exact hk

/-- Witness for C10: in `topologicalSort [A, B] = [B, A]`, the dependent `B`
(index 0) precedes its dependency `A` (index 1). -/
theorem claim_C10_witness :
    (Acyclic [assetA, assetB] ∧ ([assetA, assetB].map (fun a => a.name)).Nodup ∧
      (topologicalSort [assetA, assetB])[0]? = some assetB ∧
      "A" ∈ assetB.depends ∧ (findAsset [assetA, assetB] "A").isSome) ∧
    (∃ (j : Nat) (R : AssetInfo), 0 < j ∧
      (topologicalSort [assetA, assetB])[j]? = some R ∧ R.name = "A") :=
  ⟨⟨acyclicAB, by decide, by decide, by decide, by decide⟩,
    claim_C10 [assetA, assetB] acyclicAB (by decide) 0 assetB (by decide) "A"
      (by decide) (by decide)⟩

end Yii2Mcp
